import Mathlib

/-!
Verification of the account-based PDF extractor (src/ar4.py).

The core of the program is a pure text-to-records transformation:
  * segmentation of the document text at `Account:` markers (re.split with a
    lookahead pattern),
  * four regex-driven field extractors (account number, patient name,
    date of service, CPT codes),
  * a block loop that skips blocks without an account number or without CPT
    codes, and
  * a keep-first deduplication by account number.

Text is modelled as `List Char` (ASCII semantics for the Python character
classes \s, \d, \w).  Each Python regex used by the program is embedded as a
hand-written matcher that is faithful to the leftmost-match, greedy /
backtracking semantics of the specific pattern, and `re.findall` is embedded
as a non-overlapping left-to-right scanner.
-/

abbrev Str := List Char

/-- Convert a Lean string literal to the character-list representation. -/
def chars (s : String) : Str := s.data

/-- Python `\s` on ASCII text: space, tab, newline, carriage return,
vertical tab, form feed. -/
def isWS (c : Char) : Bool :=
  c == ' ' || c == '\t' || c == '\n' || c == '\r' || c == '\x0b' || c == '\x0c'

/-- Python `\d` on ASCII text. -/
def isDigitC (c : Char) : Bool := '0' ≤ c && c ≤ '9'

/-- Python `\w` on ASCII text: letters, digits, underscore. -/
def isWordC (c : Char) : Bool := c.isAlpha || isDigitC c || c == '_'

/-- Word-ness of the character left of the current position (`none` at the
start of the text counts as non-word). -/
def prevWord : Option Char → Bool
  | none => false
  | some c => isWordC c

/-- `\b` between a known left character (`prev`) and a current character. -/
def boundaryB (prev : Option Char) (c : Char) : Bool :=
  prevWord prev != isWordC c

/-- `\b` to the right of a word character: the next character must be absent
or a non-word character. -/
def nextNonWord : Str → Bool
  | [] => true
  | c :: _ => !isWordC c

/-- `[A-Z0-9]` under `re.IGNORECASE`: ASCII letters of either case plus
digits. -/
def isAlnumC (c : Char) : Bool := c.isAlpha || isDigitC c

/-!  ## CPT-code pattern: `\b\d{5}(?:-[A-Z0-9]{2})?\b` (IGNORECASE)  -/

/-- Attempt to match the CPT pattern at the current position.  `prev` is the
character immediately to the left (for the leading `\b`).  On success returns
the matched token and the remaining text after the match.  The optional
modifier group is tried greedily first; if its trailing `\b` fails the engine
backtracks to the bare five-digit match, whose trailing `\b` then sits before
the hyphen (a non-word character) and succeeds. -/
def cptAt (prev : Option Char) (s : Str) : Option (Str × Str) :=
  if ((s.take 5).length == 5 && (s.take 5).all isDigitC) && !prevWord prev then
    match s.drop 5 with
    | '-' :: x :: y :: r =>
      if isAlnumC x && isAlnumC y && nextNonWord r then some (s.take 8, r)
      else some (s.take 5, s.drop 5)
    | rest5 => if nextNonWord rest5 then some (s.take 5, rest5) else none
  else none

/-- Non-overlapping left-to-right scan with a position-aware matcher, the
embedding of `re.findall`.  Structured with explicit fuel so that it is
structurally recursive; `fuel = s.length` always suffices because every
matcher used consumes at least one character. -/
def findAllAux (m : Option Char → Str → Option (Str × Str)) :
    Nat → Option Char → Str → List Str
  | 0, _, _ => []
  | _ + 1, _, [] => []
  | fuel + 1, prev, c :: cs =>
    match m prev (c :: cs) with
    | some (t, r) => t :: findAllAux m fuel t.getLast? r
    | none => findAllAux m fuel (some c) cs

/-- `re.findall` for a matcher, starting at the beginning of the text. -/
def findAll (m : Option Char → Str → Option (Str × Str)) (s : Str) : List Str :=
  findAllAux m s.length none s

/-- The scan resumed at an interior position: `prev` is the character left
of the current position. -/
def findAllFrom (m : Option Char → Str → Option (Str × Str))
    (prev : Option Char) (s : Str) : List Str :=
  findAllAux m s.length prev s

/-- All CPT-pattern matches in a block, in order. -/
def cptFindAll (s : Str) : List Str := findAll cptAt s

/-!  ## Lexicographic string order (Python `sorted` on strings)  -/

/-- Python string comparison: lexicographic by code point, a proper prefix
is smaller. -/
def strLeB : Str → Str → Bool
  | [], _ => true
  | _ :: _, [] => false
  | a :: as, b :: bs => if a < b then true else if b < a then false else strLeB as bs

/-- The order used to model Python `sorted` on strings. -/
def StrLe (x y : Str) : Prop := strLeB x y = true

instance : DecidableRel StrLe := fun x y => by
  unfold StrLe; infer_instance

instance : IsTotal Str StrLe := by
  constructor
  intro x
  induction x with
  | nil => intro y; left; rfl
  | cons a as ih =>
    intro y
    cases y with
    | nil => right; rfl
    | cons b bs =>
      rcases lt_trichotomy a b with h | h | h
      · left; simp [StrLe, strLeB, h]
      · subst h
        rcases ih bs with h2 | h2
        · left; simp [StrLe, strLeB, lt_irrefl]; exact h2
        · right; simp [StrLe, strLeB, lt_irrefl]; exact h2
      · right; simp [StrLe, strLeB, h]

instance : IsTrans Str StrLe := by
  constructor
  intro x
  induction x with
  | nil => intro y z _ _; rfl
  | cons a as ih =>
    intro y z hxy hyz
    cases y with
    | nil => simp [StrLe, strLeB] at hxy
    | cons b bs =>
      cases z with
      | nil => simp [StrLe, strLeB] at hyz
      | cons c cs =>
        unfold StrLe strLeB at hxy hyz ⊢
        by_cases hab : a < b
        · by_cases hbc : b < c
          · simp [lt_trans hab hbc]
          · by_cases hcb : c < b
            · simp [hbc, hcb] at hyz
            · have hbc2 : b = c := le_antisymm (not_lt.mp hcb) (not_lt.mp hbc)
              subst hbc2; simp [hab]
        · by_cases hba : b < a
          · simp [hab, hba] at hxy
          · have hab2 : a = b := le_antisymm (not_lt.mp hba) (not_lt.mp hab)
            subst hab2
            simp only [lt_irrefl, if_false] at hxy
            by_cases hbc : a < c
            · simp [hbc]
            · by_cases hcb : c < a
              · simp [hbc, hcb] at hyz
              · have hbc2 : a = c := le_antisymm (not_lt.mp hcb) (not_lt.mp hbc)
                subst hbc2
                simp only [lt_irrefl, if_false] at hyz ⊢
                exact ih _ _ hxy hyz

/-!  ## `", ".join` and `extract_cpt_codes`  -/

/-- `", ".join(l)`, structurally. -/
def joinCS : List Str → Str
  | [] => []
  | [x] => x
  | x :: xs => x ++ ',' :: ' ' :: joinCS xs

/-- `extract_cpt_codes` (src/ar4.py lines 105-111): find all CPT matches,
return `""` if none, else sort the set of matches and join with `", "`. -/
def extract_cpt_codes (block : Str) : Str :=
  let cpt_codes := cptFindAll block
  if cpt_codes = [] then []
  else joinCS (List.insertionSort StrLe cpt_codes.dedup)

/-!  ## Account-number pattern: `Account:\s*(\d{4,5})`  -/

/-- Attempt the account pattern at the current position: literal `Account:`,
then a greedy run of whitespace, then a greedy capture of 4-5 digits (it
takes 5 when a fifth digit is available, and needs at least 4). -/
def accountAt (s : Str) : Option Str :=
  if (chars "Account:").isPrefixOf s then
    let run := (((s.drop 8).dropWhile isWS).takeWhile isDigitC)
    if 4 ≤ run.length then some (run.take 5) else none
  else none

/-- `account_pattern.search`: leftmost match, returning the captured digits. -/
def searchAccount : Str → Option Str
  | [] => none
  | c :: cs =>
    match accountAt (c :: cs) with
    | some a => some a
    | none => searchAccount cs

/-!  ## Block segmentation: `re.split(r"(?=Account:\s*\d{4})", full_text)`  -/

/-- The zero-width boundary `(?=Account:\s*\d{4})`: the suffix starts with
`Account:`, optional whitespace, and at least four digits. -/
def markerLA (s : Str) : Bool :=
  (chars "Account:").isPrefixOf s &&
    4 ≤ (((s.drop 8).dropWhile isWS).takeWhile isDigitC).length

/-- Scanner for `re.split` on a zero-width lookahead: walk the text, and at
every position where the lookahead matches, emit the accumulated segment and
start a new one (the matched text is not consumed).  A match at position 0
emits an empty first segment, as Python does. -/
def goSplit : Str → Str → List Str
  | acc, [] => [acc.reverse]
  | acc, c :: cs =>
    if markerLA (c :: cs) then acc.reverse :: goSplit [c] cs
    else goSplit (c :: acc) cs

/-- The block list produced by the segmenter. -/
def splitBlocks (t : Str) : List Str := goSplit [] t

/-!  ## Date pattern: `\b\d{2}/\d{2}/\d{4}\b`  -/

/-- Attempt the date pattern at the current position. -/
def dateAt (prev : Option Char) (s : Str) : Option (Str × Str) :=
  match s with
  | a :: b :: s1 :: c :: d :: s2 :: e :: f :: g :: h :: rest =>
    if s1 == '/' && s2 == '/' && [a, b, c, d, e, f, g, h].all isDigitC
        && !prevWord prev && nextNonWord rest then
      some ([a, b, s1, c, d, s2, e, f, g, h], rest)
    else none
  | _ => none

/-- `date_pattern.search`: leftmost date match. -/
def dateSearch : Option Char → Str → Option Str
  | _, [] => none
  | prev, c :: cs =>
    match dateAt prev (c :: cs) with
    | some (d, _) => some d
    | none => dateSearch (some c) cs

/-- `date_pattern.findall`. -/
def dateFindAll (s : Str) : List Str := findAll dateAt s

/-!  ## `extract_date_of_service`  -/

/-- Drop text up to (but not including) the first newline: what the lazy
`.*?` walks over before `\n` can match. -/
def dropToNL (s : Str) : Str := s.dropWhile (fun c => !(c == '\n'))

/-- Attempt `Account:\s*\d{4}.*?\n(.*)` at the current position, returning
the contents of the capture group `(.*)` (the rest of the line after the
first newline that follows the account digits).  The whole match fails here
when no newline follows. -/
def acctLineAt (s : Str) : Option Str :=
  if (chars "Account:").isPrefixOf s then
    let r := (s.drop 8).dropWhile isWS
    if (r.take 4).length == 4 && (r.take 4).all isDigitC then
      match dropToNL (r.drop 4) with
      | '\n' :: tail => some (tail.takeWhile (fun c => !(c == '\n')))
      | _ => none
    else none
  else none

/-- `re.search(r"Account:\s*\d{4}.*?\n(.*)", block)`: leftmost position where
the whole pattern (including the newline) matches. -/
def searchAcctLine : Str → Option Str
  | [] => none
  | c :: cs =>
    match acctLineAt (c :: cs) with
    | some l => some l
    | none => searchAcctLine cs

/-- `extract_date_of_service` (src/ar4.py lines 91-103): prefer the first
date on the line following the account line; otherwise the first date
anywhere in the block; otherwise `""`. -/
def extract_date_of_service (block : Str) : Str :=
  let fallback : Str :=
    match (dateFindAll block).head? with
    | some d => d
    | none => []
  match searchAcctLine block with
  | some possible_line =>
    match dateSearch none possible_line with
    | some d => d
    | none => fallback
  | none => fallback

/-!  ## Patient-name tier 1: `\b[A-Z ,.'\-]{3,}\b`  -/

/-- The character class `[A-Z ,.'\-]`. -/
def nameClassC (c : Char) : Bool :=
  ('A' ≤ c && c ≤ 'Z') || c == ' ' || c == ',' || c == '.' ||
    c == Char.ofNat 39 || c == '-'

/-- `\b` at offset `k` into the current suffix `s` (between characters
`k-1` and `k`). -/
def endBoundary (s : Str) (k : Nat) : Bool :=
  ((s.get? (k - 1)).elim false isWordC) != ((s.get? k).elim false isWordC)

/-- Backtracking for the greedy `{3,}` quantifier followed by `\b`: try the
maximal run length first and shrink until the trailing boundary holds,
never below 3. -/
def bestK (s : Str) : Nat → Option Nat
  | 0 => none
  | k + 1 =>
    if k + 1 < 3 then none
    else if endBoundary s (k + 1) then some (k + 1) else bestK s k

/-- Attempt the tier-1 uppercase-run pattern at the current position. -/
def nameAt (prev : Option Char) (s : Str) : Option (Str × Str) :=
  match s with
  | [] => none
  | c :: _ =>
    if boundaryB prev c then
      match bestK s (s.takeWhile nameClassC).length with
      | some k => some (s.take k, s.drop k)
      | none => none
    else none

/-- All tier-1 matches in a block. -/
def nameFindAll (s : Str) : List Str := findAll nameAt s

/-!  ## Patient-name tier 2:
`[A-Z][a-z]+(?: [A-Z][a-z]+)*, [A-Z][a-z]+(?: [A-Z]\.?)?`  -/

/-- ASCII `[A-Z]`. -/
def isUpperC (c : Char) : Bool := 'A' ≤ c && c ≤ 'Z'

/-- ASCII `[a-z]`. -/
def isLowerC (c : Char) : Bool := 'a' ≤ c && c ≤ 'z'

/-- Greedy `[a-z]+` run. -/
def lowersOf (s : Str) : Str := s.takeWhile isLowerC

/-- One greedy star unit ` [A-Z][a-z]+`: returns consumed length and rest. -/
def parseUnit : Str → Option (Nat × Str)
  | ' ' :: c :: rest =>
    if isUpperC c then
      let ls := lowersOf rest
      if 0 < ls.length then some (2 + ls.length, rest.drop ls.length) else none
    else none
  | _ => none

/-- The mandatory continuation `, [A-Z][a-z]+(?: [A-Z]\.?)?` with its greedy
optional middle-initial group. -/
def contMixed : Str → Option (Nat × Str)
  | ',' :: ' ' :: c :: rest =>
    if isUpperC c then
      let ls := lowersOf rest
      if 0 < ls.length then
        match rest.drop ls.length with
        | ' ' :: d :: r3 =>
          if isUpperC d then
            match r3 with
            | '.' :: r4 => some (3 + ls.length + 3, r4)
            | _ => some (3 + ls.length + 2, r3)
          else some (3 + ls.length, ' ' :: d :: r3)
        | r2 => some (3 + ls.length, r2)
      else none
    else none
  | _ => none

/-- Greedy `(?: [A-Z][a-z]+)*` followed by the continuation, with the
regex engine's backtracking: prefer consuming another unit, and on failure
of the rest fall back to trying the continuation here. -/
def mixedTailAux : Nat → Str → Option (Nat × Str)
  | 0, _ => none
  | fuel + 1, s =>
    match parseUnit s with
    | some (n, s2) =>
      (match mixedTailAux fuel s2 with
       | some (m, r) => some (n + m, r)
       | none => contMixed s)
    | none => contMixed s

/-- Attempt the tier-2 mixed-case pattern at the current position (the
pattern has no `\b`, so the left context is ignored). -/
def mixedAt (_ : Option Char) (s : Str) : Option (Str × Str) :=
  match s with
  | [] => none
  | c :: rest =>
    if isUpperC c then
      let ls := lowersOf rest
      if 0 < ls.length then
        match mixedTailAux s.length (rest.drop ls.length) with
        | some (m, r) => some (s.take (1 + ls.length + m), r)
        | none => none
      else none
    else none

/-- All tier-2 matches in a block. -/
def mixedFindAll (s : Str) : List Str := findAll mixedAt s

/-!  ## Python string helpers  -/

/-- Python `str.split()` with no argument: split on whitespace runs,
dropping empty fields. -/
def pySplitAux : Nat → Str → List Str
  | 0, _ => []
  | _ + 1, [] => []
  | fuel + 1, c :: cs =>
    if isWS c then pySplitAux fuel cs
    else (c :: cs.takeWhile (fun x => !isWS x)) ::
      pySplitAux fuel (cs.dropWhile (fun x => !isWS x))

/-- Python `str.split()`. -/
def pySplit (s : Str) : List Str := pySplitAux s.length s

/-- Python `str.strip()`: drop leading and trailing whitespace. -/
def pyStrip (s : Str) : Str :=
  (((s.dropWhile isWS).reverse).dropWhile isWS).reverse

/-- Python `str.upper()` on ASCII text. -/
def pyUpper (s : Str) : Str := s.map Char.toUpper

/-- Python `str.title()`: an alphabetic character is uppercased when the
previous character is not alphabetic, lowercased otherwise; any non-alphabetic
character starts a new word. -/
def pyTitleAux : Bool → Str → Str
  | _, [] => []
  | prevAlpha, c :: cs =>
    (if c.isAlpha then (if prevAlpha then c.toLower else c.toUpper) else c) ::
      pyTitleAux c.isAlpha cs

/-- Python `str.title()`. -/
def pyTitle (s : Str) : Str := pyTitleAux false s

/-- Python `max(l, key=len)`: the first element of maximal length (later
elements replace the running best only when strictly longer). -/
def pyMaxLen : List Str → Str
  | [] => []
  | x :: xs => xs.foldl (fun best n => if best.length < n.length then n else best) x

/-!  ## `extract_patient_name`  -/

/-- The ignore list defined locally inside `extract_patient_name`
(src/ar4.py lines 61-65); this is the set the function actually consults. -/
def ignore_words_local : List Str :=
  [chars "SECONDARY", chars "PRIMARY", chars "DOL", chars "PAY",
   chars "INSURANCE", chars "PPO", chars "PLAN", chars "TOTALS",
   chars "BALANCE", chars "OVERPD", chars "GENESISC", chars "GENESICARE",
   chars "FLORIDA", chars "USA", chars "NOT", chars "USE", chars "BCBS",
   chars "FBU"]

/-- The module-level ignore list (src/ar4.py lines 49-52); it is shadowed by
the local list inside `extract_patient_name` and never consulted. -/
def ignore_words_module : List Str :=
  [chars "SECONDARY", chars "PRIMARY", chars "DOL", chars "PAY",
   chars "INSURANCE", chars "PPO", chars "PLAN", chars "TOTALS",
   chars "BALANCE", chars "OVERPD", chars "GENESICARE", chars "YES",
   chars "NO", chars "FLORIDA", chars "USA"]

/-- The tier-1 filter of `extract_patient_name`: no whitespace token of the
run is in the (local) ignore list, and the run has at least two tokens. -/
def tier1Keep (n : Str) : Bool :=
  !((pySplit n).any (fun w => ignore_words_local.contains w)) &&
    2 ≤ (pySplit n).length

/-- The tier-2 filter: no token, uppercased, is in the (local) ignore list. -/
def tier2Keep (m : Str) : Bool :=
  !((pySplit m).any (fun w => ignore_words_local.contains (pyUpper w)))

/-- `extract_patient_name` (src/ar4.py lines 55-89): tier 1 collects the
uppercase-run matches, filters them, strips each survivor, and returns the
title-cased longest; tier 2 (only when tier 1 has no survivor) collects the
mixed-case matches, filters them, and returns the stripped longest. -/
def extract_patient_name (block : Str) : Str :=
  let clean_upper := ((nameFindAll block).filter tier1Keep).map pyStrip
  if clean_upper = [] then
    let mixed_clean := (mixedFindAll block).filter tier2Keep
    if mixed_clean = [] then []
    else pyStrip (pyMaxLen mixed_clean)
  else pyTitle (pyMaxLen clean_upper)

/-!  ## The block loop, deduplication, and the pipeline  -/

/-- One output record (one row of the final table). -/
structure Record where
  accountNumber : Str
  patientName : Str
  dateOfService : Str
  cptCodes : Str
deriving DecidableEq

/-- The body of the block loop (src/ar4.py lines 114-135): skip
whitespace-only blocks, skip blocks without an account-number match, skip
blocks whose CPT extraction is empty, otherwise build the record. -/
def processBlock (b : Str) : Option Record :=
  if pyStrip b = [] then none
  else
    match searchAccount b with
    | none => none
    | some acc =>
      let cpt := extract_cpt_codes b
      if cpt = [] then none
      else some ⟨acc, extract_patient_name b, extract_date_of_service b, cpt⟩

/-- The working list `records` accumulated over a block list. -/
def recordsOfBlocks (bs : List Str) : List Record := bs.filterMap processBlock

/-- The records accumulated over the whole document text. -/
def records (text : Str) : List Record := recordsOfBlocks (splitBlocks text)

/-- Keep-first deduplication, with fuel for structural recursion
(`fuel = l.length` always suffices since `filter` never lengthens). -/
def dropDupFirstAux : Nat → List Record → List Record
  | 0, _ => []
  | _ + 1, [] => []
  | fuel + 1, r :: rs =>
    r :: dropDupFirstAux fuel
      (rs.filter (fun x => !(x.accountNumber == r.accountNumber)))

/-- `df.drop_duplicates(subset=["Account Number"])`: keep the first record
for each account number, in order. -/
def dropDupFirst (l : List Record) : List Record := dropDupFirstAux l.length l

/-- The final table for a document text. -/
def tableOf (text : Str) : List Record := dropDupFirst (records text)

/-- The user-visible outcome of the pipeline (src/ar4.py lines 32-34 and
143-147): the no-text error, the no-valid-data warning, or the table. -/
inductive Outcome
  | noText
  | noValidData
  | table (t : List Record)
deriving DecidableEq

/-- The whole pipeline from document text to outcome. -/
def run (text : Str) : Outcome :=
  if pyStrip text = [] then .noText
  else
    let df := tableOf text
    if df = [] then .noValidData else .table df

/-!  ## Further definitions used to state the claims  -/

/-- Splitting a string on the separator `", "` (the inverse of `joinCS` on
comma-free fields). -/
def splitCSAux : Str → Str → List Str
  | acc, [] => [acc.reverse]
  | acc, ',' :: ' ' :: rest => acc.reverse :: splitCSAux [] rest
  | acc, c :: cs => splitCSAux (c :: acc) cs

/-- Split on `", "`. -/
def splitCS (s : Str) : List Str := splitCSAux [] s

/-- The shape `^\d{5}(-[A-Za-z0-9]{2})?$` of a CPT token. -/
def cptShape (t : Str) : Bool :=
  (t.length == 5 && t.all isDigitC) ||
    (t.length == 8 && (t.take 5).all isDigitC && (t.drop 5).head? == some '-' &&
      (t.drop 6).all isAlnumC)

/-- The boundary positions of a block list: the start offsets of every block
but the first, inside the concatenation. -/
def boundsFrom (off : Nat) : List Str → List Nat
  | [] => []
  | x :: xs => off :: boundsFrom (off + x.length) xs

/-- Start offsets of the non-first blocks. -/
def blockBounds : List Str → List Nat
  | [] => []
  | b :: bs => boundsFrom b.length bs

/-- All positions of the text where the segmentation lookahead matches. -/
def occStarts (text : Str) : List Nat :=
  (List.range text.length).filter (fun i => markerLA (text.drop i))

/-- `true` when the literal `Account:` occurs nowhere in the text. -/
def noAccountB : Str → Bool
  | [] => true
  | c :: cs => !((chars "Account:").isPrefixOf (c :: cs)) && noAccountB cs

/-- Modelled from the spec (claim C4): title case where a word is a maximal
whitespace-separated token — the first character of each token is uppercased
and the rest lowercased.  (The code instead uses Python `str.title`, which
starts a new word after every non-alphabetic character.) -/
def wsTitleAux : Bool → Str → Str
  | _, [] => []
  | prevNonWS, c :: cs =>
    (if isWS c then c else if prevNonWS then c.toLower else c.toUpper) ::
      wsTitleAux (!isWS c) cs

/-- Title case with whitespace-separated words (the claim's wording). -/
def wsTitle (s : Str) : Str := wsTitleAux false s

/-- Modelled from the spec (amended claim C4): Python-style title case — an
alphabetic character is uppercased exactly when the preceding character is
absent or non-alphabetic. -/
def specTitleCase : Option Char → Str → Str
  | _, [] => []
  | prev, c :: cs =>
    (if c.isAlpha then
       (match prev with
        | some p => if p.isAlpha then c.toLower else c.toUpper
        | none => c.toUpper)
     else c) :: specTitleCase (some c) cs

/-- The maximal length of the elements of a list of strings. -/
def maxLenOf : List Str → Nat
  | [] => 0
  | x :: xs => max x.length (maxLenOf xs)

/-- Modelled from the spec (claim C4): “the longest by character count, ties
broken by first occurrence” — the first element whose length attains the
maximum. -/
def specLongest (l : List Str) : Str :=
  match l.find? (fun x => x.length == maxLenOf l) with
  | some x => x
  | none => []

/-- Modelled from the spec (claim C4): tier 2 — collect mixed-case
“Last, First” matches, discard ignore-listed ones, return the longest,
trimmed; empty string when nothing survives. -/
def specTier2 (block : Str) : Str :=
  let ms := (mixedFindAll block).filter tier2Keep
  if ms = [] then [] else pyStrip (specLongest ms)

/-- Modelled from the spec (claim C4, as stated): tier 1 collects the
uppercase runs, discards ignore-listed runs and runs with fewer than two
tokens, and returns the longest survivor converted to (whitespace-word)
title case; tier 2 runs only when tier 1 yields nothing. -/
def specPatientName (block : Str) : Str :=
  let survivors := (nameFindAll block).filter tier1Keep
  if survivors = [] then specTier2 block
  else wsTitle (specLongest survivors)

/-- Modelled from the spec (claim C4, amended): as `specPatientName`, but
each surviving run is stripped of surrounding whitespace before selection,
and title case follows Python `str.title` (a new word after every
non-alphabetic character). -/
def specPatientNameAmended (block : Str) : Str :=
  let survivors := ((nameFindAll block).filter tier1Keep).map pyStrip
  if survivors = [] then specTier2 block
  else specTitleCase none (specLongest survivors)

/-- Split a text into lines at newline characters. -/
def linesAux : Str → Str → List Str
  | acc, [] => [acc.reverse]
  | acc, '\n' :: cs => acc.reverse :: linesAux [] cs
  | acc, c :: cs => linesAux (c :: acc) cs

/-- The lines of a text. -/
def linesOf (s : Str) : List Str := linesAux [] s

/-- Whether the account-marker pattern `Account:\s*\d{4}` matches anywhere
in a text (used line-locally to find the account-marker line). -/
def anyMarker : Str → Bool
  | [] => false
  | c :: cs => markerLA (c :: cs) || anyMarker cs

/-- Modelled from the spec (claim C6): take the first date on the line
immediately following the (first) account-marker line; if none is found
there, the first date anywhere in the block; otherwise the empty string. -/
def specDate (b : Str) : Str :=
  let fb : Str :=
    match dateSearch none b with
    | some d => d
    | none => []
  match (linesOf b).findIdx? anyMarker with
  | some k =>
    match (linesOf b).get? (k + 1) with
    | some l2 =>
      (match dateSearch none l2 with
       | some d => d
       | none => fb)
    | none => fb
  | none => fb

example : cptFindAll (chars "11111-2a") = [chars "11111-2a"] := by decide
example : cptFindAll (chars "123456789012") = [] := by decide
example : cptFindAll (chars "54321-6789") = [chars "54321"] := by decide
example : cptFindAll (chars "99999-x9!") = [chars "99999-x9"] := by decide

example : searchAccount (chars "Account:  123456") = some (chars "12345") := by decide
example : searchAccount (chars "xAccount:9999y") = some (chars "9999") := by decide
example : searchAccount (chars "Account: 123") = none := by decide

example : splitBlocks (chars "Account: 1234 a Account: 567 Account:999 Account:55555end") =
    [[], chars "Account: 1234 a Account: 567 Account:999 ", chars "Account:55555end"] := by
  decide

example : splitBlocks (chars "pre") = [chars "pre"] := by decide

example : nameFindAll (chars "x O'AB CD") = [' ' :: chars "O" ++ Char.ofNat 39 :: chars "AB CD"] := by decide
example : nameFindAll (chars "DOE YES") = [chars "DOE YES"] := by decide
example : nameFindAll (chars "ABC. ") = [chars "ABC"] := by decide
example : nameFindAll (chars "ABC1 DE FG") = [chars " DE FG"] := by decide
example : nameFindAll (chars "a SMITH, JOHN J. b") = [chars " SMITH, JOHN J. "] := by decide
example : nameFindAll (chars "x, ,. -Y Z") = [chars ", ,. -Y Z"] := by decide

example : mixedFindAll (chars "McCrodden, Susan J") = [chars "Crodden, Susan J"] := by decide
example : mixedFindAll (chars "Aa, Bb, Cc") = [chars "Aa, Bb"] := by decide
example : mixedFindAll (chars "Smith, John J. x") = [chars "Smith, John J."] := by decide
example : mixedFindAll (chars "Ab Cd Ef, Gh I") = [chars "Ab Cd Ef, Gh I"] := by decide
example : mixedFindAll (chars "Smith,John") = [] := by decide

example : extract_date_of_service (chars "Account: 1234\n07/07/2024") = chars "07/07/2024" := by decide
example : extract_date_of_service (chars "Account:\n1234 06/06/2026\n07/07/2027") = chars "07/07/2027" := by decide
example : extract_date_of_service (chars "01/01/2020 Account: 1234\nx") = chars "01/01/2020" := by decide
example : extract_date_of_service (chars "Account: 12345 x\ny 03/03/2033 04/04/2044") = chars "03/03/2033" := by decide
example : extract_date_of_service (chars "Account: 1234 nodate") = [] := by decide

example : extract_patient_name (chars "x O'AB CD") =
    (chars "O" ++ Char.ofNat 39 :: chars "Ab Cd") := by decide
example : extract_patient_name (chars "DOE YES") = chars "Doe Yes" := by decide
example : extract_patient_name (chars "SECONDARY INSURANCE PPO PLAN") = [] := by decide
example : extract_patient_name (chars "McCrodden, Susan J") = chars "Crodden, Susan J" := by decide
example : extract_patient_name (chars "AB-CD EF") = chars "Ab-Cd Ef" := by decide

example : extract_cpt_codes (chars "see 99213 and 81001, 99213 again") =
    chars "81001, 99213" := by decide
example : extract_cpt_codes (chars "Account: 123456") = [] := by decide
example : extract_cpt_codes (chars "90000-3D x") = chars "90000-3D" := by decide
example : extract_cpt_codes (chars "12345-ABC") = chars "12345" := by decide

example : specPatientName (chars "x O'AB CD") =
    (' ' :: chars "O" ++ Char.ofNat 39 :: chars "ab Cd") := by decide
example : specPatientNameAmended (chars "x O'AB CD") =
    (chars "O" ++ Char.ofNat 39 :: chars "Ab Cd") := by decide
example : specDate (chars "Account: 1234\n07/07/2024") = chars "07/07/2024" := by decide
example : specDate (chars "Account: 12345 x\ny 03/03/2033 04/04/2044") = chars "03/03/2033" := by decide
example : specDate (chars "Account: 1234 nodate") = [] := by decide
example : splitCS (chars "81001, 99213") = [chars "81001", chars "99213"] := by decide
example : run (chars "   ") = Outcome.noText := by decide
example : run (chars "hello world") = Outcome.noValidData := by decide


/-!  ## Lemmas: the generic scanner  -/

/-- A matcher consumes at least one character on success. -/
def Shrinking (m : Option Char → Str → Option (Str × Str)) : Prop :=
  ∀ prev s t r, m prev s = some (t, r) → r.length < s.length

theorem findAllAux_fuel {m : Option Char → Str → Option (Str × Str)}
    (hm : Shrinking m) :
    ∀ fuel fuel' (prev : Option Char) (s : Str), s.length ≤ fuel →
      s.length ≤ fuel' → findAllAux m fuel prev s = findAllAux m fuel' prev s := by
  intro fuel
  induction fuel with
  | zero =>
    intro fuel' prev s hs _
    have hnil : s = [] := List.eq_nil_of_length_eq_zero (Nat.le_zero.mp hs)
    subst hnil
    cases fuel' <;> rfl
  | succ n ih =>
    intro fuel' prev s hs hs'
    cases s with
    | nil => cases fuel' <;> rfl
    | cons c cs =>
      cases fuel' with
      | zero => simp at hs'
      | succ n' =>
        simp only [findAllAux]
        cases hmm : m prev (c :: cs) with
        | some tr =>
          obtain ⟨t, r⟩ := tr
          have hlt := hm _ _ _ _ hmm
          simp only [List.length_cons] at hs hs' hlt
          exact congrArg (t :: ·) (ih n' t.getLast? r (by omega) (by omega))
        | none =>
          simp only [List.length_cons] at hs hs'
          exact ih n' (some c) cs (by omega) (by omega)

theorem findAllFrom_cons {m : Option Char → Str → Option (Str × Str)}
    (hm : Shrinking m) (prev : Option Char) (c : Char) (cs : Str) :
    findAllFrom m prev (c :: cs) =
      (match m prev (c :: cs) with
       | some (t, r) => t :: findAllFrom m t.getLast? r
       | none => findAllFrom m (some c) cs) := by
  show findAllAux m (c :: cs).length prev (c :: cs) = _
  simp only [List.length_cons, findAllAux]
  cases hmm : m prev (c :: cs) with
  | some tr =>
    obtain ⟨t, r⟩ := tr
    have hlt := hm _ _ _ _ hmm
    simp only [List.length_cons] at hlt
    exact congrArg (t :: ·)
      (findAllAux_fuel hm _ _ _ _ (by omega) (by omega))
  | none => rfl

/-!  ## Lemmas: the CPT matcher  -/

theorem cptAt_some {prev : Option Char} {s t r : Str}
    (h : cptAt prev s = some (t, r)) :
    cptShape t = true ∧ t ≠ [] ∧ t ++ r = s := by
  unfold cptAt at h
  split at h
  case isFalse => simp at h
  case isTrue hcond =>
    simp only [Bool.and_eq_true, beq_iff_eq] at hcond
    obtain ⟨⟨h5len, h5dig⟩, -⟩ := hcond
    have hlen5 : 5 ≤ s.length := by
      rw [List.length_take] at h5len; omega
    split at h
    · rename_i x y r2 hd
      split at h
      · rename_i hxy
        simp only [Option.some.injEq, Prod.mk.injEq] at h
        obtain ⟨ht, hr⟩ := h
        subst ht; subst hr
        simp only [Bool.and_eq_true] at hxy
        obtain ⟨⟨hx, hy⟩, -⟩ := hxy
        have hdlen : (s.drop 5).length = s.length - 5 := List.length_drop 5 s
        have hlen8 : s.length = r2.length + 8 := by
          rw [hd] at hdlen
          simp only [List.length_cons] at hdlen
          omega
        refine ⟨?_, ?_, ?_⟩
        · unfold cptShape
          simp only [Bool.or_eq_true, Bool.and_eq_true, beq_iff_eq]
          right
          refine ⟨⟨⟨?_, ?_⟩, ?_⟩, ?_⟩
          · rw [List.length_take]; omega
          · have : (s.take 8).take 5 = s.take 5 := by
              rw [List.take_take]; norm_num
            rw [this]; exact h5dig
          · have : (s.take 8).drop 5 = (s.drop 5).take 3 := by
              rw [List.drop_take]
            rw [this, hd]
            rfl
          · have h6 : (s.take 8).drop 6 = (s.drop 6).take 2 := by
              rw [List.drop_take]
            have h65 : s.drop 6 = (s.drop 5).drop 1 := by
              rw [List.drop_drop]
            rw [h6, h65, hd]
            simp [hx, hy]
        · intro hnil
          have := congrArg List.length hnil
          rw [List.length_take] at this
          simp only [List.length_nil] at this
          omega
        · have hsplit : s.take 8 ++ s.drop 8 = s := List.take_append_drop 8 s
          have hdrop8 : s.drop 8 = r2 := by
            have h85 : s.drop 8 = (s.drop 5).drop 3 := by
              rw [List.drop_drop]
            rw [h85, hd]
            rfl
          rw [hdrop8] at hsplit
          exact hsplit
      · simp only [Option.some.injEq, Prod.mk.injEq] at h
        obtain ⟨ht, hr⟩ := h
        subst ht; subst hr
        refine ⟨?_, ?_, List.take_append_drop 5 s⟩
        · unfold cptShape
          simp only [Bool.or_eq_true, Bool.and_eq_true, beq_iff_eq]
          left
          refine ⟨?_, h5dig⟩
          rw [List.length_take]; omega
        · intro hnil
          have := congrArg List.length hnil
          rw [List.length_take] at this
          simp only [List.length_nil] at this
          omega
    · rename_i hd
      split at h
      · simp only [Option.some.injEq, Prod.mk.injEq] at h
        obtain ⟨ht, hr⟩ := h
        subst ht; subst hr
        refine ⟨?_, ?_, List.take_append_drop 5 s⟩
        · unfold cptShape
          simp only [Bool.or_eq_true, Bool.and_eq_true, beq_iff_eq]
          left
          refine ⟨?_, h5dig⟩
          rw [List.length_take]; omega
        · intro hnil
          have := congrArg List.length hnil
          rw [List.length_take] at this
          simp only [List.length_nil] at this
          omega
      · simp at h

theorem cptAt_shrink : Shrinking cptAt := by
  intro prev s t r h
  obtain ⟨-, hne, happ⟩ := cptAt_some h
  have hlen := congrArg List.length happ
  rw [List.length_append] at hlen
  have hpos : 0 < t.length := List.length_pos.mpr hne
  omega

/-- Every token produced by a scan comes from a successful matcher call. -/
theorem findAllFrom_forall {m : Option Char → Str → Option (Str × Str)}
    (hm : Shrinking m) {P : Str → Prop}
    (hP : ∀ prev s t r, m prev s = some (t, r) → P t) :
    ∀ (n : Nat) (s : Str), s.length ≤ n →
      ∀ (prev : Option Char) (t : Str), t ∈ findAllFrom m prev s → P t := by
  intro n
  induction n with
  | zero =>
    intro s hs prev t ht
    have hnil : s = [] := List.eq_nil_of_length_eq_zero (Nat.le_zero.mp hs)
    subst hnil
    simp [findAllFrom, findAllAux] at ht
  | succ n ih =>
    intro s hs prev t ht
    cases s with
    | nil => simp [findAllFrom, findAllAux] at ht
    | cons c cs =>
      rw [findAllFrom_cons hm] at ht
      cases hmm : m prev (c :: cs) with
      | some tr =>
        obtain ⟨t0, r⟩ := tr
        rw [hmm] at ht
        simp only [List.mem_cons] at ht
        rcases ht with rfl | ht
        · exact hP _ _ _ _ hmm
        · have hlt := hm _ _ _ _ hmm
          simp only [List.length_cons] at hs hlt
          exact ih r (by omega) _ _ ht
      | none =>
        rw [hmm] at ht
        simp only [List.length_cons] at hs
        exact ih cs (by omega) _ _ ht

/-- Every CPT token found in a block has the CPT shape. -/
theorem cptFindAll_shape {s t : Str} (ht : t ∈ cptFindAll s) :
    cptShape t = true :=
  findAllFrom_forall cptAt_shrink
    (fun _ _ _ _ h => (cptAt_some h).1) s.length s le_rfl none t ht

/-!  ## Lemmas: the date matcher  -/

theorem dateAt_some {prev : Option Char} {s t r : Str}
    (h : dateAt prev s = some (t, r)) : t.length = 10 ∧ t ++ r = s := by
  unfold dateAt at h
  split at h
  · split at h
    · simp only [Option.some.injEq, Prod.mk.injEq] at h
      obtain ⟨ht, hr⟩ := h
      subst ht; subst hr
      exact ⟨rfl, rfl⟩
    · simp at h
  · simp at h

theorem dateAt_shrink : Shrinking dateAt := by
  intro prev s t r h
  obtain ⟨hlen, happ⟩ := dateAt_some h
  have := congrArg List.length happ
  rw [List.length_append, hlen] at this
  omega

/-- The first element of `date_pattern.findall` is the result of
`date_pattern.search`. -/
theorem dateFindAll_head :
    ∀ (n : Nat) (s : Str), s.length ≤ n → ∀ (prev : Option Char),
      (findAllFrom dateAt prev s).head? = dateSearch prev s := by
  intro n
  induction n with
  | zero =>
    intro s hs prev
    have hnil : s = [] := List.eq_nil_of_length_eq_zero (Nat.le_zero.mp hs)
    subst hnil
    rfl
  | succ n ih =>
    intro s hs prev
    cases s with
    | nil => rfl
    | cons c cs =>
      rw [findAllFrom_cons dateAt_shrink]
      show _ = dateSearch prev (c :: cs)
      unfold dateSearch
      cases hmm : dateAt prev (c :: cs) with
      | some tr =>
        obtain ⟨t, r⟩ := tr
        rfl
      | none =>
        simp only [List.length_cons] at hs
        exact ih cs (by omega) (some c)

/-!  ## Lemmas: keep-first deduplication  -/

theorem dropDupFirstAux_fuel :
    ∀ fuel fuel' (l : List Record), l.length ≤ fuel → l.length ≤ fuel' →
      dropDupFirstAux fuel l = dropDupFirstAux fuel' l := by
  intro fuel
  induction fuel with
  | zero =>
    intro fuel' l hl _
    have hnil : l = [] := List.eq_nil_of_length_eq_zero (Nat.le_zero.mp hl)
    subst hnil
    cases fuel' <;> rfl
  | succ n ih =>
    intro fuel' l hl hl'
    cases l with
    | nil => cases fuel' <;> rfl
    | cons r rs =>
      cases fuel' with
      | zero => simp at hl'
      | succ n' =>
        simp only [dropDupFirstAux]
        have hfl := List.length_filter_le
          (fun x => !(x.accountNumber == r.accountNumber)) rs
        simp only [List.length_cons] at hl hl'
        exact congrArg (r :: ·) (ih n' _ (by omega) (by omega))

theorem dropDupFirst_cons (r : Record) (rs : List Record) :
    dropDupFirst (r :: rs) =
      r :: dropDupFirst (rs.filter (fun x => !(x.accountNumber == r.accountNumber))) := by
  show dropDupFirstAux (r :: rs).length (r :: rs) = _
  simp only [List.length_cons, dropDupFirstAux]
  have hfl := List.length_filter_le
    (fun x => !(x.accountNumber == r.accountNumber)) rs
  exact congrArg (r :: ·) (dropDupFirstAux_fuel _ _ _ (by omega) le_rfl)

theorem dropDupFirst_sublist :
    ∀ (n : Nat) (l : List Record), l.length ≤ n → (dropDupFirst l).Sublist l := by
  intro n
  induction n with
  | zero =>
    intro l hl
    have hnil : l = [] := List.eq_nil_of_length_eq_zero (Nat.le_zero.mp hl)
    subst hnil
    exact List.Sublist.refl []
  | succ n ih =>
    intro l hl
    cases l with
    | nil => exact List.Sublist.refl []
    | cons r rs =>
      rw [dropDupFirst_cons]
      apply List.Sublist.cons₂
      have hfl := List.length_filter_le
        (fun x => !(x.accountNumber == r.accountNumber)) rs
      simp only [List.length_cons] at hl
      exact (ih _ (by omega)).trans (List.filter_sublist rs)

theorem dropDupFirst_nodup :
    ∀ (n : Nat) (l : List Record), l.length ≤ n →
      (dropDupFirst l |>.map Record.accountNumber).Nodup := by
  intro n
  induction n with
  | zero =>
    intro l hl
    have hnil : l = [] := List.eq_nil_of_length_eq_zero (Nat.le_zero.mp hl)
    subst hnil
    exact List.nodup_nil
  | succ n ih =>
    intro l hl
    cases l with
    | nil => exact List.nodup_nil
    | cons r rs =>
      rw [dropDupFirst_cons]
      simp only [List.map_cons, List.nodup_cons]
      constructor
      · intro hmem
        simp only [List.mem_map] at hmem
        obtain ⟨x, hx, hxe⟩ := hmem
        have hxf : x ∈ rs.filter (fun y => !(y.accountNumber == r.accountNumber)) :=
          (dropDupFirst_sublist _ _ le_rfl).mem hx
        have := (List.mem_filter.mp hxf).2
        simp only [Bool.not_eq_true', beq_eq_false_iff_ne] at this
        exact this hxe
      · have hfl := List.length_filter_le
          (fun x => !(x.accountNumber == r.accountNumber)) rs
        simp only [List.length_cons] at hl
        exact ih _ (by omega)

theorem dropDupFirst_covers :
    ∀ (n : Nat) (l : List Record), l.length ≤ n →
      ∀ x ∈ l, ∃ y ∈ dropDupFirst l, y.accountNumber = x.accountNumber := by
  intro n
  induction n with
  | zero =>
    intro l hl x hx
    have hnil : l = [] := List.eq_nil_of_length_eq_zero (Nat.le_zero.mp hl)
    subst hnil
    simp at hx
  | succ n ih =>
    intro l hl x hx
    cases l with
    | nil => simp at hx
    | cons r rs =>
      rw [dropDupFirst_cons]
      simp only [List.mem_cons] at hx
      rcases hx with rfl | hx
      · exact ⟨x, List.mem_cons_self _ _, rfl⟩
      · by_cases hacc : x.accountNumber = r.accountNumber
        · exact ⟨r, List.mem_cons_self _ _, hacc.symm⟩
        · have hxf : x ∈ rs.filter (fun y => !(y.accountNumber == r.accountNumber)) := by
            apply List.mem_filter.mpr
            refine ⟨hx, ?_⟩
            simp only [Bool.not_eq_true', beq_eq_false_iff_ne]
            exact hacc
          have hfl := List.length_filter_le
            (fun y => !(y.accountNumber == r.accountNumber)) rs
          simp only [List.length_cons] at hl
          obtain ⟨y, hy, hye⟩ := ih _ (by omega) x hxf
          exact ⟨y, List.mem_cons_of_mem _ hy, hye⟩

/-- `find?` is unchanged by removing elements that the predicate rejects. -/
theorem find?_filter_of_imp (p q : Record → Bool)
    (hpq : ∀ x, p x = true → q x = true) :
    ∀ l : List Record, (l.filter q).find? p = l.find? p := by
  intro l
  induction l with
  | nil => rfl
  | cons x xs ih =>
    by_cases hq : q x = true
    · rw [List.filter_cons_of_pos hq]
      by_cases hp : p x = true
      · rw [List.find?_cons_of_pos _ hp, List.find?_cons_of_pos _ hp]
      · rw [List.find?_cons_of_neg _ (by simpa using hp),
          List.find?_cons_of_neg _ (by simpa using hp)]
        exact ih
    · rw [List.filter_cons_of_neg (by simpa using hq)]
      have hp : ¬ p x = true := fun hp => hq (hpq x hp)
      rw [List.find?_cons_of_neg _ (by simpa using hp)]
      exact ih

theorem dropDupFirst_first :
    ∀ (n : Nat) (l : List Record), l.length ≤ n →
      ∀ x ∈ dropDupFirst l,
        l.find? (fun y => y.accountNumber == x.accountNumber) = some x := by
  intro n
  induction n with
  | zero =>
    intro l hl x hx
    have hnil : l = [] := List.eq_nil_of_length_eq_zero (Nat.le_zero.mp hl)
    subst hnil
    simp [dropDupFirst, dropDupFirstAux] at hx
  | succ n ih =>
    intro l hl x hx
    cases l with
    | nil => simp [dropDupFirst, dropDupFirstAux] at hx
    | cons r rs =>
      rw [dropDupFirst_cons] at hx
      simp only [List.mem_cons] at hx
      rcases hx with rfl | hx
      · exact List.find?_cons_of_pos _ (by simp)
      · have hxf : x ∈ rs.filter (fun y => !(y.accountNumber == r.accountNumber)) :=
          (dropDupFirst_sublist _ _ le_rfl).mem hx
        have hne : x.accountNumber ≠ r.accountNumber := by
          have := (List.mem_filter.mp hxf).2
          simp only [Bool.not_eq_true', beq_eq_false_iff_ne] at this
          exact this
        rw [List.find?_cons_of_neg _ (by simp; exact fun hc => hne hc.symm)]
        have hfl := List.length_filter_le
          (fun y => !(y.accountNumber == r.accountNumber)) rs
        simp only [List.length_cons] at hl
        have := ih _ (by omega) x hx
        rw [find?_filter_of_imp _ _ ?_ rs] at this
        · exact this
        · intro z hz
          simp only [beq_iff_eq] at hz
          simp only [Bool.not_eq_true', beq_eq_false_iff_ne]
          rw [hz]
          exact hne

/-!  ## Lemmas: splitting the joined CPT string  -/

theorem splitCSAux_cons_ne (acc : Str) (c : Char) (w : Str) (hc : c ≠ ',') :
    splitCSAux acc (c :: w) = splitCSAux (c :: acc) w := by
  rw [splitCSAux.eq_def]
  split
  · rename_i heq
    simp at heq
  · rename_i rest heq
    simp only [List.cons.injEq] at heq
    exact absurd heq.1 hc
  · rename_i c2 cs2 heq
    simp only [List.cons.injEq] at heq
    obtain ⟨rfl, rfl⟩ := heq
    rfl

theorem splitCSAux_walk (x : Str) (hx : ∀ c ∈ x, c ≠ ',') :
    ∀ (acc rest : Str),
      splitCSAux acc (x ++ rest) = splitCSAux (x.reverse ++ acc) rest := by
  induction x with
  | nil => intro acc rest; rfl
  | cons c cs ih =>
    intro acc rest
    have hc : c ≠ ',' := hx c (List.mem_cons_self _ _)
    rw [List.cons_append, splitCSAux_cons_ne _ _ _ hc,
      ih (fun d hd => hx d (List.mem_cons_of_mem _ hd))]
    simp [List.append_assoc]

theorem splitCS_joinCS :
    ∀ (xs : List Str), xs ≠ [] → (∀ x ∈ xs, ∀ c ∈ x, c ≠ ',') →
      splitCS (joinCS xs) = xs := by
  intro xs
  induction xs with
  | nil => intro h; exact absurd rfl h
  | cons x xs ih =>
    intro _ hall
    cases xs with
    | nil =>
      show splitCSAux [] (joinCS [x]) = [x]
      have hw := splitCSAux_walk x (hall x (List.mem_cons_self _ _)) [] []
      rw [List.append_nil] at hw
      show splitCSAux [] x = [x]
      rw [hw]
      simp [splitCSAux]
    | cons y ys =>
      have hj : joinCS (x :: y :: ys) = x ++ ',' :: ' ' :: joinCS (y :: ys) := rfl
      show splitCSAux [] (joinCS (x :: y :: ys)) = x :: y :: ys
      rw [hj, splitCSAux_walk x (hall x (List.mem_cons_self _ _)) [] _]
      have hstep : splitCSAux (x.reverse ++ []) (',' :: ' ' :: joinCS (y :: ys)) =
          (x.reverse ++ []).reverse :: splitCSAux [] (joinCS (y :: ys)) := rfl
      rw [hstep]
      have := ih (by simp) (fun z hz => hall z (List.mem_cons_of_mem _ hz))
      rw [show splitCSAux [] (joinCS (y :: ys)) = splitCS (joinCS (y :: ys)) from rfl,
        this]
      simp

theorem cptShape_ne_nil {t : Str} (h : cptShape t = true) : t ≠ [] := by
  intro hnil
  subst hnil
  simp [cptShape] at h

theorem cptShape_no_comma {t : Str} (h : cptShape t = true) :
    ∀ c ∈ t, c ≠ ',' := by
  intro c hc
  unfold cptShape at h
  simp only [Bool.or_eq_true, Bool.and_eq_true, beq_iff_eq] at h
  rcases h with ⟨-, hall⟩ | ⟨⟨⟨-, h5⟩, hmid⟩, htail⟩
  · have := List.all_eq_true.mp hall c hc
    intro hcc
    subst hcc
    simp [isDigitC] at this
  · have hsplit : t.take 5 ++ t.drop 5 = t := List.take_append_drop 5 t
    rw [← hsplit] at hc
    rcases List.mem_append.mp hc with hc5 | hcd
    · have := List.all_eq_true.mp h5 c hc5
      intro hcc
      subst hcc
      simp [isDigitC] at this
    · cases hdd : t.drop 5 with
      | nil => rw [hdd] at hcd; simp at hcd
      | cons d ds =>
        have hdhead : d = '-' := by
          rw [hdd] at hmid
          simp only [List.head?_cons, Option.some.injEq] at hmid
          exact hmid
        have hds : ds = t.drop 6 := by
          have : t.drop 6 = (t.drop 5).drop 1 := by rw [List.drop_drop]
          rw [this, hdd]
          rfl
        rw [hdd] at hcd
        rcases List.mem_cons.mp hcd with rfl | hctail
        · rw [hdhead]; intro hcc; cases hcc
        · rw [hds] at hctail
          have := List.all_eq_true.mp htail c hctail
          intro hcc
          subst hcc
          simp [isAlnumC, isDigitC] at this

/-- Characterization of a non-empty `extract_cpt_codes` result: splitting it
on `", "` recovers the sorted deduplicated match list. -/
theorem extract_cpt_codes_spec {b : Str} (h : extract_cpt_codes b ≠ []) :
    cptFindAll b ≠ [] ∧
      splitCS (extract_cpt_codes b) =
        List.insertionSort StrLe (cptFindAll b).dedup := by
  have hfa : cptFindAll b ≠ [] := by
    intro hnil
    apply h
    unfold extract_cpt_codes
    simp [hnil]
  refine ⟨hfa, ?_⟩
  have hext : extract_cpt_codes b =
      joinCS (List.insertionSort StrLe (cptFindAll b).dedup) := by
    unfold extract_cpt_codes
    simp [hfa]
  rw [hext]
  apply splitCS_joinCS
  · intro hnil
    have hperm := List.perm_insertionSort StrLe (cptFindAll b).dedup
    rw [hnil] at hperm
    have hlen := hperm.symm.length_eq
    simp only [List.length_nil] at hlen
    have hdnil := List.eq_nil_of_length_eq_zero hlen
    exact hfa ((List.dedup_eq_nil _).mp hdnil)
  · intro x hx
    have hxd : x ∈ (cptFindAll b).dedup :=
      (List.perm_insertionSort StrLe _).mem_iff.mp hx
    have hxm : x ∈ cptFindAll b := List.mem_dedup.mp hxd
    exact cptShape_no_comma (cptFindAll_shape hxm)

/-!  ## Lemmas: the block loop  -/

theorem processBlock_some {b : Str} {r : Record} (h : processBlock b = some r) :
    searchAccount b = some r.accountNumber ∧
      r.patientName = extract_patient_name b ∧
      r.dateOfService = extract_date_of_service b ∧
      r.cptCodes = extract_cpt_codes b ∧ extract_cpt_codes b ≠ [] := by
  unfold processBlock at h
  split at h
  · simp at h
  · split at h
    · simp at h
    · rename_i acc hacc
      dsimp only at h
      split at h
      · simp at h
      · rename_i hcpt
        simp only [Option.some.injEq] at h
        subst h
        exact ⟨hacc, rfl, rfl, rfl, hcpt⟩

theorem mem_records {text : Str} {r : Record} (h : r ∈ records text) :
    ∃ b, b ∈ splitBlocks text ∧ processBlock b = some r := by
  unfold records recordsOfBlocks at h
  obtain ⟨b, hb, hpb⟩ := List.mem_filterMap.mp h
  exact ⟨b, hb, hpb⟩

/-!  ## Lemmas: stripping and the account search  -/

theorem pyStrip_ne_nil {b : Str} {c : Char} (hc : c ∈ b) (hws : isWS c = false) :
    pyStrip b ≠ [] := by
  intro hnil
  unfold pyStrip at hnil
  have h1 : ((b.dropWhile isWS).reverse).dropWhile isWS = [] := by
    have := congrArg List.reverse hnil
    simpa using this
  have h2 : ∀ x ∈ (b.dropWhile isWS).reverse, isWS x = true :=
    List.dropWhile_eq_nil_iff.mp h1
  have h3 : ∀ x ∈ b.dropWhile isWS, isWS x = true := by
    intro x hx
    exact h2 x (List.mem_reverse.mpr hx)
  have hb : ∀ x ∈ b, isWS x = true := by
    intro x hx
    have hsplit : b.takeWhile isWS ++ b.dropWhile isWS = b :=
      List.takeWhile_append_dropWhile isWS b
    rw [← hsplit] at hx
    rcases List.mem_append.mp hx with h | h
    · exact List.mem_takeWhile_imp h
    · exact h3 x h
  rw [hb c hc] at hws
  cases hws

theorem searchAccount_mem {b : Str} {a : Str} (h : searchAccount b = some a) :
    'A' ∈ b := by
  induction b with
  | nil => simp [searchAccount] at h
  | cons c cs ih =>
    unfold searchAccount at h
    cases hacc : accountAt (c :: cs) with
    | some a2 =>
      unfold accountAt at hacc
      split at hacc
      · rename_i hpre
        have hca : c = 'A' := by
          rw [List.isPrefixOf_iff_prefix] at hpre
          obtain ⟨t, ht⟩ := hpre
          have h2 : 'A' :: (chars "ccount:") ++ t = c :: cs := ht
          simp only [List.cons_append] at h2
          exact (List.cons.injEq .. ▸ h2).1.symm
        rw [hca]
        exact List.mem_cons_self _ _
      · simp at hacc
    | none =>
      rw [hacc] at h
      exact List.mem_cons_of_mem _ (ih h)

theorem searchAccount_strip {b : Str} {a : Str} (h : searchAccount b = some a) :
    pyStrip b ≠ [] :=
  pyStrip_ne_nil (searchAccount_mem h) (by decide)

/-!  ## Claim theorems  -/

/-- Claim C1: for every input text, the final table is deduplicated by
account number keeping the first occurrence per key — it is an
order-preserving sublist of the working record list, its account numbers are
pairwise distinct, every working record has a representative in the table,
and every table entry is exactly (all four fields of) the first working
record with its account number; the table branch of the pipeline shows
exactly this table. -/
theorem claim_C1 (text : Str) :
    (tableOf text).Sublist (records text) ∧
    ((tableOf text).map Record.accountNumber).Nodup ∧
    (∀ x ∈ records text, ∃ y ∈ tableOf text,
      y.accountNumber = x.accountNumber) ∧
    (∀ x ∈ tableOf text,
      (records text).find? (fun y => y.accountNumber == x.accountNumber) = some x) ∧
    (∀ t, run text = .table t → t = tableOf text) := by
  refine ⟨dropDupFirst_sublist _ _ le_rfl, dropDupFirst_nodup _ _ le_rfl,
    dropDupFirst_covers _ _ le_rfl, dropDupFirst_first _ _ le_rfl, ?_⟩
  intro t ht
  unfold run at ht
  split at ht
  · cases ht
  · dsimp only at ht
    split at ht
    · cases ht
    · cases ht
      rfl

theorem claim_C1_witness :
    ∃ y ∈ tableOf (chars "Account: 5001\n99213\nAccount: 5001\n81001\n"),
      y.accountNumber = chars "5001" := by
  have h := (claim_C1 (chars "Account: 5001\n99213\nAccount: 5001\n81001\n")).2.2.1
    ⟨chars "5001", [], [], chars "81001"⟩ (by decide)
  simpa using h

/-- Claim C2: a block with an account-number match but an empty CPT
extraction produces no record, and removing such a block from a block list
leaves the extracted records of the other blocks unchanged. -/
theorem claim_C2 (b : Str) (pre post : List Str)
    (_hacc : searchAccount b ≠ none) (hcpt : extract_cpt_codes b = []) :
    processBlock b = none ∧
      recordsOfBlocks (pre ++ b :: post) = recordsOfBlocks (pre ++ post) := by
  have hpb : processBlock b = none := by
    unfold processBlock
    split
    · rfl
    · split
      · rfl
      · dsimp only
        rw [if_pos hcpt]
  refine ⟨hpb, ?_⟩
  unfold recordsOfBlocks
  simp [List.filterMap_append, List.filterMap_cons, hpb]

theorem claim_C2_witness :
    processBlock (chars "Account: 1234") = none ∧
      recordsOfBlocks [chars "Account: 9999 99213", chars "Account: 1234"] =
        recordsOfBlocks [chars "Account: 9999 99213"] :=
  claim_C2 (chars "Account: 1234") [chars "Account: 9999 99213"] []
    (by decide) (by decide)

/-- Claim C3, counterexample: the block `Account: 1234` has an
account-number match, but its CPT extraction is empty and no record is
produced — so the absence of CPT codes is also fatal to a block,
contradicting the claim that the account number is the only fatal field. -/
theorem claim_C3_counterexample :
    (searchAccount (chars "Account: 1234")).isSome = true ∧
      extract_cpt_codes (chars "Account: 1234") = [] ∧
      processBlock (chars "Account: 1234") = none := by decide

/-- Claim C3, amended: the account number and the CPT codes are the two
fields whose absence is fatal to a block; the absence of the patient name or
of the date of service never by itself prevents a record — when an account
number is found and the CPT extraction is non-empty, the record is produced
whatever the name and date extractions return. -/
theorem claim_C3_amended (b : Str) :
    (searchAccount b = none → processBlock b = none) ∧
    (∀ a, searchAccount b = some a → extract_cpt_codes b ≠ [] →
      processBlock b = some ⟨a, extract_patient_name b,
        extract_date_of_service b, extract_cpt_codes b⟩) := by
  constructor
  · intro hacc
    unfold processBlock
    split
    · rfl
    · rw [hacc]
  · intro a ha hcpt
    unfold processBlock
    rw [if_neg (searchAccount_strip ha), ha]
    dsimp only
    rw [if_neg hcpt]

theorem claim_C3_amended_witness :
    processBlock (chars "Account: 1234 99213") =
      some ⟨chars "1234", [], [], chars "99213"⟩ :=
  ((claim_C3_amended (chars "Account: 1234 99213")).2 (chars "1234")
    (by decide) (by decide)).trans (by decide)

/-- Claim C5: every CPT token found by the matcher has the CPT shape, and
every record of the final table carries a `", "`-joined CPT string that
splits into a non-empty list of CPT-shaped tokens, sorted ascending in the
lexicographic string order and free of duplicates. -/
theorem claim_C5 (text : Str) (r : Record) (hr : r ∈ tableOf text) :
    (∀ (b : Str), ∀ tok ∈ cptFindAll b, cptShape tok = true) ∧
    splitCS r.cptCodes ≠ [] ∧
    (∀ tok ∈ splitCS r.cptCodes, cptShape tok = true) ∧
    (splitCS r.cptCodes).Sorted StrLe ∧
    (splitCS r.cptCodes).Nodup := by
  have hrrec : r ∈ records text := (dropDupFirst_sublist _ _ le_rfl).mem hr
  obtain ⟨b, -, hpb⟩ := mem_records hrrec
  obtain ⟨-, -, -, hcpt, hne⟩ := processBlock_some hpb
  rw [hcpt]
  obtain ⟨hfa, hsplit⟩ := extract_cpt_codes_spec hne
  rw [hsplit]
  refine ⟨fun b2 tok htok => cptFindAll_shape htok, ?_, ?_, ?_, ?_⟩
  · intro hnil
    have hperm := List.perm_insertionSort StrLe (cptFindAll b).dedup
    rw [hnil] at hperm
    have hlen := hperm.symm.length_eq
    simp only [List.length_nil] at hlen
    exact hfa ((List.dedup_eq_nil _).mp (List.eq_nil_of_length_eq_zero hlen))
  · intro tok htok
    exact cptFindAll_shape
      (List.mem_dedup.mp ((List.perm_insertionSort StrLe _).mem_iff.mp htok))
  · exact List.sorted_insertionSort StrLe _
  · exact (List.perm_insertionSort StrLe _).nodup_iff.mpr (List.nodup_dedup _)

theorem claim_C5_witness :
    splitCS (chars "81001, 99213") ≠ [] ∧
      (splitCS (chars "81001, 99213")).Sorted StrLe := by
  have h := claim_C5 (chars "Account: 1234\n99213 81001 99213\n")
    ⟨chars "1234", [], [], chars "81001, 99213"⟩ (by decide)
  exact ⟨h.2.1, h.2.2.2.1⟩

/-!  ## Lemmas: longest-element selection and title casing  -/

theorem maxLenOf_head_le (x : Str) (xs : List Str) :
    x.length ≤ maxLenOf (x :: xs) :=
  le_max_left _ _

theorem specLongest_cons_le {x y : Str} (ys : List Str)
    (h : y.length ≤ x.length) :
    specLongest (x :: y :: ys) = specLongest (x :: ys) := by
  have hM : maxLenOf (x :: y :: ys) = maxLenOf (x :: ys) := by
    simp only [maxLenOf]
    omega
  unfold specLongest
  rw [hM]
  by_cases hx : x.length = maxLenOf (x :: ys)
  · rw [List.find?_cons_of_pos _ (by simpa using hx),
      List.find?_cons_of_pos _ (by simpa using hx)]
  · have hxle : x.length ≤ maxLenOf (x :: ys) := maxLenOf_head_le x ys
    have hy : ¬ (y.length = maxLenOf (x :: ys)) := by omega
    rw [List.find?_cons_of_neg _ (by simpa using hx),
      List.find?_cons_of_neg _ (by simpa using hy),
      List.find?_cons_of_neg _ (by simpa using hx)]

theorem specLongest_cons_lt {x y : Str} (ys : List Str)
    (h : x.length < y.length) :
    specLongest (x :: y :: ys) = specLongest (y :: ys) := by
  have hyle : y.length ≤ maxLenOf (y :: ys) := maxLenOf_head_le y ys
  have hM : maxLenOf (x :: y :: ys) = maxLenOf (y :: ys) := by
    simp only [maxLenOf]
    omega
  unfold specLongest
  rw [hM]
  have hx : ¬ (x.length = maxLenOf (y :: ys)) := by omega
  rw [List.find?_cons_of_neg _ (by simpa using hx)]

theorem pyMaxLen_eq_specLongest :
    ∀ (xs : List Str) (x : Str), pyMaxLen (x :: xs) = specLongest (x :: xs) := by
  intro xs
  induction xs with
  | nil =>
    intro x
    show x = specLongest [x]
    unfold specLongest
    rw [List.find?_cons_of_pos _ (by simp [maxLenOf])]
  | cons y ys ih =>
    intro x
    show List.foldl _ x (y :: ys) = _
    rw [List.foldl_cons]
    by_cases h : x.length < y.length
    · have hf : (if x.length < y.length then y else x) = y := if_pos h
      have step : List.foldl
          (fun best n => if best.length < n.length then n else best)
          (if x.length < y.length then y else x) ys = pyMaxLen (y :: ys) := by
        rw [hf]; rfl
      rw [show (List.foldl (fun best n => if best.length < n.length then n else best)
          (if x.length < y.length then y else x) ys : Str) =
          List.foldl (fun best n => if best.length < n.length then n else best) y ys
        from by rw [hf]]
      have := ih y
      rw [show (List.foldl (fun best n => if best.length < n.length then n else best)
          y ys : Str) = pyMaxLen (y :: ys) from rfl, this,
        specLongest_cons_lt ys h]
    · have hf : (if x.length < y.length then y else x) = x := if_neg h
      rw [show (List.foldl (fun best n => if best.length < n.length then n else best)
          (if x.length < y.length then y else x) ys : Str) =
          List.foldl (fun best n => if best.length < n.length then n else best) x ys
        from by rw [hf]]
      rw [show (List.foldl (fun best n => if best.length < n.length then n else best)
          x ys : Str) = pyMaxLen (x :: ys) from rfl, ih x,
        specLongest_cons_le ys (by omega)]

theorem specTitleCase_eq_pyTitleAux :
    ∀ (s : Str) (prev : Option Char),
      specTitleCase prev s =
        pyTitleAux (match prev with | some p => p.isAlpha | none => false) s := by
  intro s
  induction s with
  | nil => intro prev; cases prev <;> rfl
  | cons c cs ih =>
    intro prev
    unfold specTitleCase pyTitleAux
    cases prev with
    | none =>
      simp only
      rw [ih (some c)]
      simp
    | some p =>
      simp only
      rw [ih (some c)]

/-- Claim C4, counterexample: on the block `x O'AB CD` the tier-1 survivor
is the raw match ` O'AB CD`; the function strips it and title-cases it with
Python `str.title` semantics (giving `O'Ab Cd`), while the claim's
description — the unstripped longest run converted to whitespace-word title
case — gives ` O'ab Cd`. -/
theorem claim_C4_counterexample :
    extract_patient_name (chars "x O" ++ Char.ofNat 39 :: chars "AB CD") ≠
      specPatientName (chars "x O" ++ Char.ofNat 39 :: chars "AB CD") := by
  decide

/-- Claim C4, amended: `extract_patient_name` is the claimed two-tier
strategy with two adjustments — each tier-1 survivor is stripped of
surrounding whitespace before the longest is selected, and title casing
follows Python `str.title` (a new word starts after every non-alphabetic
character, not only after whitespace). -/
theorem claim_C4_amended (b : Str) :
    extract_patient_name b = specPatientNameAmended b := by
  unfold extract_patient_name specPatientNameAmended specTier2
  by_cases h : ((nameFindAll b).filter tier1Keep).map pyStrip = []
  · rw [if_pos h, if_pos h]
    by_cases h2 : (mixedFindAll b).filter tier2Keep = []
    · rw [if_pos h2, if_pos h2]
    · rw [if_neg h2, if_neg h2]
      obtain ⟨m, ms, hm⟩ := List.exists_cons_of_ne_nil h2
      rw [hm, pyMaxLen_eq_specLongest]
  · rw [if_neg h, if_neg h]
    obtain ⟨m, ms, hm⟩ := List.exists_cons_of_ne_nil h
    rw [hm, pyMaxLen_eq_specLongest,
      specTitleCase_eq_pyTitleAux (specLongest (m :: ms)) none]
    rfl

/-- Claim C10: the module-level ignore list contains YES and NO, the
function-local list (the one `extract_patient_name` actually consults)
contains GENESISC, NOT, USE, BCBS and FBU but omits YES and NO, and an
uppercase run none of whose tokens is in the local list (even one whose
tokens include YES or NO) with at least two tokens survives the tier-1
filter. -/
theorem claim_C10 :
    (chars "YES" ∈ ignore_words_module ∧ chars "NO" ∈ ignore_words_module) ∧
    (chars "YES" ∉ ignore_words_local ∧ chars "NO" ∉ ignore_words_local) ∧
    (chars "GENESISC" ∈ ignore_words_local ∧ chars "NOT" ∈ ignore_words_local ∧
     chars "USE" ∈ ignore_words_local ∧ chars "BCBS" ∈ ignore_words_local ∧
     chars "FBU" ∈ ignore_words_local) ∧
    (∀ (b : Str) (n : Str), n ∈ nameFindAll b →
      (chars "YES" ∈ pySplit n ∨ chars "NO" ∈ pySplit n) →
      (∀ w ∈ pySplit n, w ∉ ignore_words_local) → 2 ≤ (pySplit n).length →
      pyStrip n ∈ ((nameFindAll b).filter tier1Keep).map pyStrip) := by
  refine ⟨by decide, by decide, by decide, ?_⟩
  intro b n hn _ hno htok
  apply List.mem_map.mpr
  refine ⟨n, List.mem_filter.mpr ⟨hn, ?_⟩, rfl⟩
  unfold tier1Keep
  apply Bool.and_eq_true_iff.mpr
  constructor
  · simp only [Bool.not_eq_true']
    rw [List.any_eq_false]
    intro w hw
    intro hcont
    exact hno w hw (List.elem_iff.mp hcont)
  · simpa using htok

theorem claim_C10_witness :
    pyStrip (chars "DOE YES") ∈
      ((nameFindAll (chars "DOE YES")).filter tier1Keep).map pyStrip :=
  claim_C10.2.2.2 (chars "DOE YES") (chars "DOE YES") (by decide)
    (Or.inl (by decide)) (by decide) (by decide)

/-!  ## Lemmas: absence of the account marker  -/

theorem noAccountB_cons {c : Char} {cs : Str} (h : noAccountB (c :: cs) = true) :
    (chars "Account:").isPrefixOf (c :: cs) = false ∧ noAccountB cs = true := by
  unfold noAccountB at h
  rcases Bool.and_eq_true_iff.mp h with ⟨h1, h2⟩
  refine ⟨?_, h2⟩
  simpa using h1

theorem goSplit_noAccount :
    ∀ (rest : Str), noAccountB rest = true →
      ∀ (acc : Str), goSplit acc rest = [acc.reverse ++ rest] := by
  intro rest
  induction rest with
  | nil => intro _ acc; simp [goSplit]
  | cons c cs ih =>
    intro h acc
    obtain ⟨h1, h2⟩ := noAccountB_cons h
    have hla : markerLA (c :: cs) = false := by
      unfold markerLA
      rw [h1]
      rfl
    unfold goSplit
    rw [hla]
    simp only [Bool.false_eq_true, if_false]
    rw [ih h2 (c :: acc)]
    simp

theorem searchAccount_noAccount :
    ∀ (b : Str), noAccountB b = true → searchAccount b = none := by
  intro b
  induction b with
  | nil => intro _; rfl
  | cons c cs ih =>
    intro h
    obtain ⟨h1, h2⟩ := noAccountB_cons h
    unfold searchAccount
    have hacc : accountAt (c :: cs) = none := by
      unfold accountAt
      rw [h1]
      rfl
    rw [hacc]
    exact ih h2

/-- Claim C8: whitespace-only input raises the no-text condition; non-blank
input with no occurrence of `Account:` yields an empty table and the
no-valid-data warning, a condition distinct from the no-text one. -/
theorem claim_C8 (text : Str) :
    (pyStrip text = [] → run text = .noText) ∧
    (pyStrip text ≠ [] → noAccountB text = true →
      tableOf text = [] ∧ run text = .noValidData) ∧
    Outcome.noValidData ≠ Outcome.noText := by
  refine ⟨?_, ?_, by decide⟩
  · intro h
    unfold run
    rw [if_pos h]
  · intro hne hno
    have hblocks : splitBlocks text = [text] := goSplit_noAccount text hno []
    have hpb : processBlock text = none := by
      unfold processBlock
      split
      · rfl
      · rw [searchAccount_noAccount text hno]
    have htab : tableOf text = [] := by
      unfold tableOf records recordsOfBlocks
      rw [hblocks]
      simp [List.filterMap_cons, hpb]
      rfl
    refine ⟨htab, ?_⟩
    unfold run
    rw [if_neg hne]
    dsimp only
    rw [htab]
    rfl

theorem claim_C8_witness :
    run (chars "hello") = Outcome.noValidData ∧
      run (chars " ") = Outcome.noText :=
  ⟨((claim_C8 (chars "hello")).2.1 (by decide) (by decide)).2,
   (claim_C8 (chars " ")).1 (by decide)⟩

/-!  ## Lemmas: the segmenter  -/

theorem goSplit_ne_nil : ∀ (acc rest : Str), goSplit acc rest ≠ [] := by
  intro acc rest
  induction rest generalizing acc with
  | nil => simp [goSplit]
  | cons c cs ih =>
    unfold goSplit
    split
    · simp
    · exact ih (c :: acc)

theorem goSplit_acc :
    ∀ (rest acc : Str),
      goSplit acc rest =
        (acc.reverse ++ (goSplit [] rest).headI) :: (goSplit [] rest).tail := by
  intro rest
  induction rest with
  | nil => intro acc; simp [goSplit]
  | cons c cs ih =>
    intro acc
    unfold goSplit
    split
    · simp
    · rw [ih (c :: acc), ih [c]]
      simp

theorem goSplit_cons (acc : Str) (c : Char) (cs : Str) :
    goSplit acc (c :: cs) =
      if markerLA (c :: cs) then acc.reverse :: goSplit [c] cs
      else goSplit (c :: acc) cs := by
  simp only [goSplit]

theorem splitBlocks_cons (c : Char) (cs : Str) :
    splitBlocks (c :: cs) =
      if markerLA (c :: cs) then
        [] :: (c :: (splitBlocks cs).headI) :: (splitBlocks cs).tail
      else (c :: (splitBlocks cs).headI) :: (splitBlocks cs).tail := by
  unfold splitBlocks
  rw [goSplit_cons, goSplit_acc cs [c]]
  split <;> simp

theorem splitBlocks_flatten : ∀ (text : Str), (splitBlocks text).flatten = text := by
  intro text
  induction text with
  | nil => rfl
  | cons c cs ih =>
    rw [splitBlocks_cons]
    cases hsb : splitBlocks cs with
    | nil => exact absurd hsb (goSplit_ne_nil [] cs)
    | cons h t =>
      rw [hsb] at ih
      simp only [List.flatten_cons] at ih
      split
      · simp only [List.headI_cons, List.tail_cons, List.flatten_cons,
          List.nil_append, List.cons_append]
        rw [ih]
      · simp only [List.headI_cons, List.tail_cons, List.flatten_cons,
          List.cons_append]
        rw [ih]

theorem boundsFrom_shift :
    ∀ (l : List Str) (off : Nat),
      boundsFrom (off + 1) l = (boundsFrom off l).map (· + 1) := by
  intro l
  induction l with
  | nil => intro off; rfl
  | cons x xs ih =>
    intro off
    unfold boundsFrom
    simp only [List.map_cons]
    rw [show off + 1 + x.length = off + x.length + 1 by omega, ih (off + x.length)]

theorem splitBlocks_bounds :
    ∀ (text : Str), blockBounds (splitBlocks text) = occStarts text := by
  intro text
  induction text with
  | nil => rfl
  | cons c cs ih =>
    have hrange : List.range (cs.length + 1) =
        0 :: (List.range cs.length).map Nat.succ := List.range_succ_eq_map _
    have hocc : occStarts (c :: cs) =
        (if markerLA (c :: cs) then [0] else []) ++
          (occStarts cs).map Nat.succ := by
      unfold occStarts
      simp only [List.length_cons]
      rw [hrange, List.filter_cons, List.filter_map]
      have hcongr : List.filter ((fun i => markerLA ((c :: cs).drop i)) ∘ Nat.succ)
          (List.range cs.length) =
          List.filter (fun i => markerLA (cs.drop i)) (List.range cs.length) := by
        apply List.filter_congr
        intro a _
        rfl
      rw [hcongr]
      simp only [List.drop_zero]
      split
      · simp
      · simp
    rw [splitBlocks_cons]
    cases hsb : splitBlocks cs with
    | nil => exact absurd hsb (goSplit_ne_nil [] cs)
    | cons h t =>
      rw [hsb] at ih
      unfold blockBounds at ih
      have ih2 : boundsFrom h.length t = occStarts cs := ih
      split
      · rename_i hla
        rw [hocc, if_pos hla]
        simp only [List.headI_cons, List.tail_cons]
        unfold blockBounds boundsFrom
        simp only [List.length_nil, List.length_cons, Nat.zero_add]
        rw [boundsFrom_shift t h.length, ih2]
        simp [Nat.succ_eq_add_one]
      · rename_i hla
        rw [hocc, if_neg hla]
        simp only [List.headI_cons, List.tail_cons]
        unfold blockBounds
        simp only [List.length_cons]
        rw [boundsFrom_shift t h.length, ih2]
        simp [Nat.succ_eq_add_one]

theorem isDigitC_not_isWS {c : Char} (h : isDigitC c = true) : isWS c = false := by
  unfold isDigitC at h
  rcases Bool.and_eq_true_iff.mp h with ⟨h1, -⟩
  have hc : '0' ≤ c := of_decide_eq_true h1
  unfold isWS
  simp only [Bool.or_eq_false_iff, beq_eq_false_iff_ne]
  and_intros <;> (intro heq; subst heq; exact absurd hc (by decide))

theorem takeWhile_append_all {p : Char → Bool} :
    ∀ (d s : Str), (∀ c ∈ d, p c = true) →
      (d ++ s).takeWhile p = d ++ s.takeWhile p := by
  intro d
  induction d with
  | nil => intro s _; rfl
  | cons c cs ih =>
    intro s hall
    rw [List.cons_append, List.takeWhile_cons,
      if_pos (hall c (List.mem_cons_self _ _)), List.cons_append]
    exact congrArg (c :: ·) (ih s (fun x hx => hall x (List.mem_cons_of_mem _ hx)))

theorem searchAccount_digits :
    ∀ (b a : Str), searchAccount b = some a →
      (a.length = 4 ∨ a.length = 5) ∧ ∀ c ∈ a, isDigitC c = true := by
  intro b
  induction b with
  | nil => intro a h; simp [searchAccount] at h
  | cons c cs ih =>
    intro a h
    unfold searchAccount at h
    cases hacc : accountAt (c :: cs) with
    | some a2 =>
      rw [hacc] at h
      simp only [Option.some.injEq] at h
      subst h
      unfold accountAt at hacc
      split at hacc
      · dsimp only at hacc
        split at hacc
        · rename_i hrun
          simp only [Option.some.injEq] at hacc
          subst hacc
          constructor
          · rw [List.length_take]
            omega
          · intro x hx
            exact List.mem_takeWhile_imp (List.mem_of_mem_take hx)
        · simp at hacc
      · simp at hacc
    | none =>
      rw [hacc] at h
      exact ih a h

/-- Claim C7: the segmenter splits without consuming text (the blocks
flatten back to the input); the boundary positions are exactly the positions
where the lookahead `Account:` + optional whitespace + four digits matches,
so every marker starts a block and no other position splits; a five-digit
account number still forms a boundary, and the account capture takes all
five digits; and every captured account number is a string of 4 or 5
digits. -/
theorem claim_C7 (text : Str) :
    (splitBlocks text).flatten = text ∧
    blockBounds (splitBlocks text) = occStarts text ∧
    (∀ (d s : Str), d.length = 5 → (∀ c ∈ d, isDigitC c = true) →
      markerLA (chars "Account: " ++ d ++ s) = true ∧
      accountAt (chars "Account: " ++ d ++ s) = some d) ∧
    (∀ (b a : Str), searchAccount b = some a →
      (a.length = 4 ∨ a.length = 5) ∧ ∀ c ∈ a, isDigitC c = true) := by
  refine ⟨splitBlocks_flatten text, splitBlocks_bounds text, ?_,
    searchAccount_digits⟩
  intro d s hd5 hddig
  have hsplit : chars "Account: " ++ d ++ s =
      chars "Account:" ++ (' ' :: (d ++ s)) := by
    have h9 : chars "Account: " = chars "Account:" ++ [' '] := by decide
    rw [h9]
    simp
  have hpre : (chars "Account:").isPrefixOf (chars "Account: " ++ d ++ s) = true := by
    rw [hsplit, List.isPrefixOf_iff_prefix]
    exact List.prefix_append _ _
  have hdrop : (chars "Account: " ++ d ++ s).drop 8 = ' ' :: (d ++ s) := by
    rw [hsplit]
    exact List.drop_left (chars "Account:") _
  obtain ⟨d0, drest, hdc⟩ : ∃ d0 drest, d = d0 :: drest := by
    cases d with
    | nil => simp at hd5
    | cons d0 drest => exact ⟨d0, drest, rfl⟩
  have hd0 : isDigitC d0 = true := hddig d0 (by rw [hdc]; exact List.mem_cons_self _ _)
  have hdw : ((' ' :: (d ++ s)).dropWhile isWS) = d ++ s := by
    rw [List.dropWhile_cons]
    simp only [show isWS ' ' = true by decide, if_true]
    rw [hdc, List.cons_append, List.dropWhile_cons, isDigitC_not_isWS hd0]
    simp
  have hrun : List.takeWhile isDigitC
      (List.dropWhile isWS ((chars "Account: " ++ d ++ s).drop 8)) =
      d ++ s.takeWhile isDigitC := by
    rw [hdrop, hdw]
    exact takeWhile_append_all d s hddig
  have hlen : (d ++ s.takeWhile isDigitC).length =
      5 + (s.takeWhile isDigitC).length := by
    rw [List.length_append, hd5]
  constructor
  · unfold markerLA
    rw [hpre, hrun]
    simp only [Bool.true_and, hlen]
    simp only [decide_eq_true_eq]
    omega
  · unfold accountAt
    rw [hpre, if_pos rfl]
    dsimp only
    rw [hrun, if_pos (by rw [hlen]; omega), List.take_left' hd5]

theorem claim_C7_witness :
    markerLA (chars "Account: " ++ chars "12345" ++ chars "end") = true ∧
      accountAt (chars "Account: " ++ chars "12345" ++ chars "end") =
        some (chars "12345") :=
  (claim_C7 []).2.2.1 (chars "12345") (chars "end") (by decide) (by decide)

/-!  ## Lemmas: CPT matches inside a block  -/

theorem cptAt_none_of_head {prev : Option Char} {c : Char} {cs : Str}
    (hc : isDigitC c = false) : cptAt prev (c :: cs) = none := by
  unfold cptAt
  rw [if_neg]
  intro hcond
  simp only [Bool.and_eq_true] at hcond
  obtain ⟨⟨-, hall⟩, -⟩ := hcond
  have hmem : c ∈ (c :: cs).take 5 := by
    rw [show (5 : Nat) = 4 + 1 from rfl, List.take_succ_cons]
    exact List.mem_cons_self _ _
  have := List.all_eq_true.mp hall c hmem
  rw [hc] at this
  cases this

theorem cptFindAll_nondigit_prefix :
    ∀ (u : Str), (∀ c ∈ u, isDigitC c = false) → ∀ (prev : Option Char) (s : Str),
      findAllFrom cptAt prev (u ++ s) =
        findAllFrom cptAt (u.getLast?.or prev) s := by
  intro u
  induction u with
  | nil => intro _ prev s; rfl
  | cons c cs ih =>
    intro hall prev s
    rw [List.cons_append, findAllFrom_cons cptAt_shrink,
      cptAt_none_of_head (hall c (List.mem_cons_self _ _)),
      ih (fun x hx => hall x (List.mem_cons_of_mem _ hx)) (some c) s]
    cases cs with
    | nil => simp
    | cons d ds =>
      rw [List.getLast?_cons_cons]
      cases hgl : (d :: ds).getLast? with
      | some x => simp
      | none =>
        exact absurd hgl (by simp)

theorem isWS_cases {c : Char} (h : isWS c = true) :
    c = ' ' ∨ c = '\t' ∨ c = '\n' ∨ c = '\x0d' ∨ c = '\x0b' ∨ c = '\x0c' := by
  unfold isWS at h
  simp only [Bool.or_eq_true, beq_iff_eq] at h
  tauto

theorem isWS_not_word {c : Char} (h : isWS c = true) : isWordC c = false := by
  rcases isWS_cases h with rfl | rfl | rfl | rfl | rfl | rfl <;> decide

theorem isWS_ne_hyphen {c : Char} (h : isWS c = true) : c ≠ '-' := by
  rcases isWS_cases h with rfl | rfl | rfl | rfl | rfl | rfl <;> decide

theorem cptAt_digits5 {prev : Option Char} {d v : Str}
    (hd5 : d.length = 5) (hddig : ∀ c ∈ d, isDigitC c = true)
    (hprev : prevWord prev = false)
    (hv : v = [] ∨ ∃ w t, v = w :: t ∧ isWS w = true) :
    cptAt prev (d ++ v) = some (d, v) := by
  have htake : (d ++ v).take 5 = d := List.take_left' hd5
  have hdrop : (d ++ v).drop 5 = v := List.drop_left' hd5
  unfold cptAt
  rw [if_pos ?hcond]
  case hcond =>
    simp only [Bool.and_eq_true]
    refine ⟨⟨?_, ?_⟩, ?_⟩
    · rw [htake, hd5]
      rfl
    · rw [htake]
      exact List.all_eq_true.mpr hddig
    · rw [hprev]
      rfl
  rw [hdrop]
  rcases hv with rfl | ⟨w, t, rfl, hw⟩
  · show (if nextNonWord [] = true then some ((d ++ ([] : Str)).take 5, ([] : Str))
        else none) = some (d, [])
    rw [if_pos (show nextNonWord [] = true from rfl), htake]
  · split
    · rename_i x y r heq
      have hwh : w = '-' := by
        simp only [List.cons.injEq] at heq
        exact heq.1
      exact absurd hwh (isWS_ne_hyphen hw)
    · rw [if_pos ?hnw, htake]
      case hnw =>
        show (!isWordC w) = true
        rw [isWS_not_word hw]
        rfl

theorem joinCS_ne_nil :
    ∀ (xs : List Str), xs ≠ [] → (∀ x ∈ xs, x ≠ []) → joinCS xs ≠ [] := by
  intro xs hne hall
  cases xs with
  | nil => exact absurd rfl hne
  | cons x ys =>
    cases ys with
    | nil => exact hall x (List.mem_cons_self _ _)
    | cons y zs =>
      show x ++ ',' :: ' ' :: joinCS (y :: zs) ≠ []
      intro hnil
      have := (List.append_eq_nil.mp hnil).2
      cases this

theorem extract_cpt_codes_ne_nil {b : Str} (h : cptFindAll b ≠ []) :
    extract_cpt_codes b ≠ [] := by
  unfold extract_cpt_codes
  dsimp only
  rw [if_neg h]
  apply joinCS_ne_nil
  · intro hnil
    have hperm := List.perm_insertionSort StrLe (cptFindAll b).dedup
    rw [hnil] at hperm
    have hlen := hperm.symm.length_eq
    simp only [List.length_nil] at hlen
    exact h ((List.dedup_eq_nil _).mp (List.eq_nil_of_length_eq_zero hlen))
  · intro x hx
    exact cptShape_ne_nil (cptFindAll_shape
      (List.mem_dedup.mp ((List.perm_insertionSort StrLe _).mem_iff.mp hx)))

/-- Claim C9, counterexample: the block `Account: 123456` has a five-digit
extracted account number (greedy capture of `12345`), yet the CPT scan finds
nothing — the sixth digit breaks the trailing word boundary — so the block
IS excluded by the zero-CPT rule. -/
theorem claim_C9_counterexample :
    searchAccount (chars "Account: 123456") = some (chars "12345") ∧
      (chars "12345").length = 5 ∧
      extract_cpt_codes (chars "Account: 123456") = [] ∧
      processBlock (chars "Account: 123456") = none := by decide

/-- Claim C9, amended: a five-digit account number matches the CPT pattern
in isolation, but in context it appears among the extracted CPT codes (and
the block survives the zero-CPT rule) only when its occurrence is preceded
by no digits since the block start with a non-word (or absent) character
immediately before it, and followed by whitespace or the end of the block;
with a sixth digit following, the match fails and the block can be dropped
(see the counterexample). -/
theorem claim_C9_amended (b u d v : Str)
    (hsearch : searchAccount b = some d) (hd5 : d.length = 5)
    (hdec : b = u ++ (d ++ v))
    (hu : ∀ c ∈ u, isDigitC c = false)
    (hul : u = [] ∨ ∃ c, u.getLast? = some c ∧ isWordC c = false)
    (hv : v = [] ∨ ∃ w t, v = w :: t ∧ isWS w = true) :
    cptAt none d = some (d, []) ∧
    d ∈ cptFindAll b ∧
    d ∈ splitCS (extract_cpt_codes b) ∧
    ∃ r, processBlock b = some r ∧ r.accountNumber = d := by
  have hdig : ∀ c ∈ d, isDigitC c = true := (searchAccount_digits b d hsearch).2
  have hprev : prevWord (u.getLast?.or none) = false := by
    rcases hul with rfl | ⟨c, hgl, hcw⟩
    · rfl
    · rw [hgl]
      exact hcw
  have hfa : cptFindAll b = d :: findAllFrom cptAt d.getLast? v := by
    show findAllFrom cptAt none b = _
    rw [hdec, cptFindAll_nondigit_prefix u hu none (d ++ v)]
    obtain ⟨d0, dr, rfl⟩ : ∃ d0 dr, d = d0 :: dr := by
      cases d with
      | nil => simp at hd5
      | cons d0 dr => exact ⟨d0, dr, rfl⟩
    rw [List.cons_append, findAllFrom_cons cptAt_shrink,
      show d0 :: (dr ++ v) = (d0 :: dr) ++ v from rfl,
      cptAt_digits5 hd5 hdig hprev hv]
  have hdinfa : d ∈ cptFindAll b := by
    rw [hfa]
    exact List.mem_cons_self _ _
  have hfane : cptFindAll b ≠ [] := by
    rw [hfa]
    simp
  have hene := extract_cpt_codes_ne_nil hfane
  obtain ⟨-, hsplit⟩ := extract_cpt_codes_spec hene
  refine ⟨?_, hdinfa, ?_, ?_⟩
  · have h1 := @cptAt_digits5 none d [] hd5 hdig rfl (Or.inl rfl)
    rw [List.append_nil] at h1
    exact h1
  · rw [hsplit]
    exact (List.perm_insertionSort StrLe _).mem_iff.mpr (List.mem_dedup.mpr hdinfa)
  · refine ⟨⟨d, extract_patient_name b, extract_date_of_service b,
      extract_cpt_codes b⟩, ?_, rfl⟩
    unfold processBlock
    rw [if_neg (searchAccount_strip hsearch), hsearch]
    dsimp only
    rw [if_neg hene]

theorem claim_C9_amended_witness :
    cptAt none (chars "12345") = some (chars "12345", []) ∧
      chars "12345" ∈ cptFindAll (chars "Account: 12345") := by
  have h := claim_C9_amended (chars "Account: 12345") (chars "Account: ")
    (chars "12345") [] (by decide) (by decide) (by decide) (by decide)
    (Or.inr ⟨' ', by decide, by decide⟩) (Or.inl rfl)
  exact ⟨h.1, h.2.1⟩

/-!  ## Lemmas: lines and the date-of-service extractor  -/

theorem dropWhile_append_all {p : Char → Bool} :
    ∀ (d s : Str), (∀ c ∈ d, p c = true) →
      (d ++ s).dropWhile p = s.dropWhile p := by
  intro d
  induction d with
  | nil => intro s _; rfl
  | cons c cs ih =>
    intro s hall
    rw [List.cons_append, List.dropWhile_cons,
      hall c (List.mem_cons_self _ _)]
    simp only [if_true]
    exact ih s (fun x hx => hall x (List.mem_cons_of_mem _ hx))

theorem takeWhile_all {p : Char → Bool} :
    ∀ (s : Str), (∀ c ∈ s, p c = true) → s.takeWhile p = s := by
  intro s hall
  have := takeWhile_append_all s [] hall
  simpa using this

theorem dropWhile_head_false {p : Char → Bool} :
    ∀ (l : Str) (d : Char) (r : Str), l.dropWhile p = d :: r → p d = false := by
  intro l
  induction l with
  | nil => intro d r h; cases h
  | cons a l2 ih =>
    intro d r h
    rw [List.dropWhile_cons] at h
    by_cases ha : p a = true
    · rw [ha] at h
      simp only [if_true] at h
      exact ih d r h
    · have ha2 : p a = false := by
        cases hpa : p a
        · rfl
        · exact absurd hpa ha
      rw [ha2] at h
      simp only [Bool.false_eq_true, if_false] at h
      obtain ⟨rfl, -⟩ := List.cons.injEq .. ▸ h
      exact ha2

/-- Every text either contains no newline, or splits at its first newline. -/
theorem split_at_nl (s : Str) :
    (∀ c ∈ s, ¬(c = '\n')) ∨
      ∃ a b2, s = a ++ '\n' :: b2 ∧ ∀ c ∈ a, ¬(c = '\n') := by
  have hsplit : s.takeWhile (fun c => !(c == '\n')) ++
      s.dropWhile (fun c => !(c == '\n')) = s :=
    List.takeWhile_append_dropWhile _ _
  cases hdw : s.dropWhile (fun c => !(c == '\n')) with
  | nil =>
    left
    intro c hc heq
    have hall := List.dropWhile_eq_nil_iff.mp hdw c hc
    rw [heq] at hall
    simp at hall
  | cons d r =>
    right
    have hd : (fun c => !(c == '\n')) d = false := dropWhile_head_false s d r hdw
    have hdn : d = '\n' := by
      simp only [Bool.not_eq_false', beq_iff_eq] at hd
      exact hd
    subst hdn
    refine ⟨s.takeWhile (fun c => !(c == '\n')), r, ?_, ?_⟩
    · conv_lhs => rw [← hsplit, hdw]
    · intro c hc heq
      have := List.mem_takeWhile_imp hc
      rw [heq] at this
      simp at this

theorem linesAux_nl (acc cs : Str) :
    linesAux acc ('\n' :: cs) = acc.reverse :: linesAux [] cs := by
  rw [linesAux.eq_def]
  rfl

theorem linesAux_cons_ne (acc : Str) (c : Char) (w : Str) (hc : ¬(c = '\n')) :
    linesAux acc (c :: w) = linesAux (c :: acc) w := by
  rw [linesAux.eq_def]
  split
  · rename_i heq
    simp at heq
  · rename_i rest heq
    simp only [List.cons.injEq] at heq
    exact absurd heq.1 hc
  · rename_i c2 cs2 heq
    simp only [List.cons.injEq] at heq
    obtain ⟨rfl, rfl⟩ := heq
    rfl

theorem linesAux_walk (x : Str) (hx : ∀ c ∈ x, ¬(c = '\n')) :
    ∀ (acc rest : Str),
      linesAux acc (x ++ rest) = linesAux (x.reverse ++ acc) rest := by
  induction x with
  | nil => intro acc rest; rfl
  | cons c cs ih =>
    intro acc rest
    rw [List.cons_append, linesAux_cons_ne _ _ _ (hx c (List.mem_cons_self _ _)),
      ih (fun d hd => hx d (List.mem_cons_of_mem _ hd))]
    simp [List.append_assoc]

theorem linesOf_no_nl (b : Str) (hb : ∀ c ∈ b, ¬(c = '\n')) :
    linesOf b = [b] := by
  show linesAux [] b = [b]
  have := linesAux_walk b hb [] []
  rw [List.append_nil] at this
  rw [show (b : Str) = b ++ [] by simp] at this ⊢
  rw [this]
  simp [linesAux]

theorem linesOf_append_nl (x y : Str) (hx : ∀ c ∈ x, ¬(c = '\n')) :
    linesOf (x ++ '\n' :: y) = x :: linesOf y := by
  show linesAux [] (x ++ '\n' :: y) = x :: linesAux [] y
  rw [linesAux_walk x hx [], linesAux_nl]
  simp

theorem linesAux_ne_nil : ∀ (acc s : Str), linesAux acc s ≠ [] := by
  intro acc s
  induction s generalizing acc with
  | nil => simp [linesAux]
  | cons c cs ih =>
    by_cases hc : c = '\n'
    · subst hc
      rw [linesAux_nl]
      simp
    · rw [linesAux_cons_ne acc c cs hc]
      exact ih (c :: acc)

theorem linesOf_head (s : Str) :
    (linesOf s).head? = some (s.takeWhile (fun c => !(c == '\n'))) := by
  rcases split_at_nl s with hall | ⟨a, b2, rfl, ha⟩
  · rw [linesOf_no_nl s hall]
    rw [takeWhile_all s ?hp]
    · rfl
    case hp =>
      intro c hc
      simp only [Bool.not_eq_true', beq_eq_false_iff_ne]
      exact hall c hc
  · rw [linesOf_append_nl a b2 ha]
    have hta : (a ++ '\n' :: b2).takeWhile (fun c => !(c == '\n')) = a := by
      rw [takeWhile_append_all a ('\n' :: b2) ?hp]
      · rw [List.takeWhile_cons]
        simp
      case hp =>
        intro c hc
        simp only [Bool.not_eq_true', beq_eq_false_iff_ne]
        exact ha c hc
    rw [hta]
    rfl

theorem anyMarker_head {s : Str} (h : markerLA s = true) : anyMarker s = true := by
  cases s with
  | nil => exact absurd h (by decide)
  | cons c cs =>
    unfold anyMarker
    rw [h]
    rfl

theorem acctLineAt_some_nl {s l : Str} (h : acctLineAt s = some l) : '\n' ∈ s := by
  unfold acctLineAt at h
  split at h
  · dsimp only at h
    split at h
    · split at h
      · rename_i tail heq
        have hmem : '\n' ∈ dropToNL (((s.drop 8).dropWhile isWS).drop 4) := by
          rw [heq]
          exact List.mem_cons_self _ _
        have s1 : (dropToNL (((s.drop 8).dropWhile isWS).drop 4)).Sublist
            (((s.drop 8).dropWhile isWS).drop 4) := by
          unfold dropToNL
          exact List.dropWhile_sublist _
        have s2 : (((s.drop 8).dropWhile isWS).drop 4).Sublist
            ((s.drop 8).dropWhile isWS) := List.drop_sublist _ _
        have s3 : ((s.drop 8).dropWhile isWS).Sublist (s.drop 8) :=
          List.dropWhile_sublist _
        have s4 : (s.drop 8).Sublist s := List.drop_sublist _ _
        exact s4.mem (s3.mem (s2.mem (s1.mem hmem)))
      · cases h
    · cases h
  · cases h

theorem searchAcctLine_none {b : Str} (hb : ∀ c ∈ b, ¬(c = '\n')) :
    searchAcctLine b = none := by
  induction b with
  | nil => rfl
  | cons c cs ih =>
    unfold searchAcctLine
    cases hacc : acctLineAt (c :: cs) with
    | some l => exact absurd rfl (hb '\n' (acctLineAt_some_nl hacc))
    | none => exact ih (fun x hx => hb x (List.mem_cons_of_mem _ hx))

theorem marker_run (w rest : Str) (hw : ∀ c ∈ w, isWS c = true)
    (h4len : (rest.take 4).length = 4)
    (h4dig : ∀ c ∈ rest.take 4, isDigitC c = true) :
    ((chars "Account:" ++ w ++ rest).drop 8).dropWhile isWS = rest ∧
    (chars "Account:").isPrefixOf (chars "Account:" ++ w ++ rest) = true := by
  constructor
  · have h1 : (chars "Account:" ++ w ++ rest).drop 8 = w ++ rest := by
      rw [List.append_assoc, show (8 : Nat) = (chars "Account:").length from rfl]
      exact List.drop_left (chars "Account:") _
    rw [h1, dropWhile_append_all w rest hw]
    obtain ⟨r0, rr, hr⟩ : ∃ r0 rr, rest = r0 :: rr := by
      cases rest with
      | nil => simp at h4len
      | cons a bs => exact ⟨a, bs, rfl⟩
    have hr0 : isDigitC r0 = true := by
      apply h4dig
      rw [hr, show (4 : Nat) = 3 + 1 from rfl, List.take_succ_cons]
      exact List.mem_cons_self _ _
    rw [hr, List.dropWhile_cons, isDigitC_not_isWS hr0]
    simp
  · rw [List.append_assoc, List.isPrefixOf_iff_prefix]
    exact List.prefix_append _ _

theorem markerLA_marker (w rest : Str) (hw : ∀ c ∈ w, isWS c = true)
    (h4len : (rest.take 4).length = 4)
    (h4dig : ∀ c ∈ rest.take 4, isDigitC c = true) :
    markerLA (chars "Account:" ++ w ++ rest) = true := by
  obtain ⟨hrun, hpre⟩ := marker_run w rest hw h4len h4dig
  unfold markerLA
  rw [hpre, hrun]
  simp only [Bool.true_and, decide_eq_true_eq]
  have htw : rest.takeWhile isDigitC =
      rest.take 4 ++ (rest.drop 4).takeWhile isDigitC := by
    conv_lhs => rw [← List.take_append_drop 4 rest]
    exact takeWhile_append_all _ _ h4dig
  rw [htw, List.length_append, h4len]
  omega

theorem acctLineAt_marker (w rest : Str) (hw : ∀ c ∈ w, isWS c = true)
    (h4len : (rest.take 4).length = 4)
    (h4dig : ∀ c ∈ rest.take 4, isDigitC c = true) :
    acctLineAt (chars "Account:" ++ w ++ rest) =
      (match dropToNL (rest.drop 4) with
       | '\n' :: tail => some (tail.takeWhile (fun c => !(c == '\n')))
       | _ => none) := by
  obtain ⟨hrun, hpre⟩ := marker_run w rest hw h4len h4dig
  unfold acctLineAt
  rw [hpre, if_pos rfl]
  dsimp only
  rw [hrun, if_pos ?hc]
  case hc =>
    simp only [Bool.and_eq_true, beq_iff_eq]
    exact ⟨h4len, List.all_eq_true.mpr h4dig⟩

/-- Claim C6, amended: on a block that starts with the account marker and
whose whitespace after `Account:` contains no newline — the blocks in which
marker and digits share one line, so that "the account-marker line" is well
defined — `extract_date_of_service` returns the first date on the line
immediately following the account-marker line, else the first date anywhere
in the block, else the empty string, i.e. it agrees with the claim's
line-based description `specDate`.  When the marker whitespace spans a
newline (the segmenter's lookahead `\s*` permits this), the code instead
scans the line following the line on which the matched digits end, and the
original description fails — see the counterexample. -/
theorem claim_C6 (w t : Str)
    (hw : ∀ c ∈ w, isWS c = true ∧ ¬(c = '\n'))
    (h4len : (t.take 4).length = 4)
    (h4dig : ∀ c ∈ t.take 4, isDigitC c = true) :
    extract_date_of_service (chars "Account:" ++ w ++ t) =
      specDate (chars "Account:" ++ w ++ t) := by
  have hwws : ∀ c ∈ w, isWS c = true := fun c hc => (hw c hc).1
  have hwnl : ∀ c ∈ w, ¬(c = '\n') := fun c hc => (hw c hc).2
  have hAnl : ∀ c ∈ chars "Account:", ¬(c = '\n') := by decide
  have hd4nl : ∀ c ∈ t.take 4, ¬(c = '\n') := by
    intro c hc heq
    have hdg := h4dig c hc
    rw [heq] at hdg
    exact absurd hdg (by decide)
  have hfb : (dateFindAll (chars "Account:" ++ w ++ t)).head? =
      dateSearch none (chars "Account:" ++ w ++ t) :=
    dateFindAll_head (chars "Account:" ++ w ++ t).length _ le_rfl none
  rcases split_at_nl (t.drop 4) with hA | ⟨p, q, hpq, hpnl⟩
  · -- no newline anywhere in the block: both sides fall back
    have hbnl : ∀ c ∈ chars "Account:" ++ w ++ t, ¬(c = '\n') := by
      intro c hc
      rw [List.append_assoc] at hc
      rcases List.mem_append.mp hc with h1 | h2
      · exact hAnl c h1
      rcases List.mem_append.mp h2 with h3 | h4
      · exact hwnl c h3
      · rw [← List.take_append_drop 4 t] at h4
        rcases List.mem_append.mp h4 with h5 | h6
        · exact hd4nl c h5
        · exact hA c h6
    have hcode : searchAcctLine (chars "Account:" ++ w ++ t) = none :=
      searchAcctLine_none hbnl
    have hlines : linesOf (chars "Account:" ++ w ++ t) =
        [chars "Account:" ++ w ++ t] := linesOf_no_nl _ hbnl
    have hmk : anyMarker (chars "Account:" ++ w ++ t) = true :=
      anyMarker_head (markerLA_marker w t hwws h4len h4dig)
    unfold extract_date_of_service specDate
    dsimp only
    rw [hcode, hlines, hfb]
    simp only [List.findIdx?_cons]
    rw [if_pos hmk]
    rfl
  · -- the block has a newline after the account digits
    have hline0 : chars "Account:" ++ w ++ t =
        (chars "Account:" ++ w ++ (t.take 4 ++ p)) ++ '\n' :: q := by
      conv_lhs => rw [← List.take_append_drop 4 t, hpq]
      simp [List.append_assoc]
    have hl0nl : ∀ c ∈ chars "Account:" ++ w ++ (t.take 4 ++ p), ¬(c = '\n') := by
      intro c hc
      rw [List.append_assoc] at hc
      rcases List.mem_append.mp hc with h1 | h2
      · exact hAnl c h1
      rcases List.mem_append.mp h2 with h3 | h4
      · exact hwnl c h3
      rcases List.mem_append.mp h4 with h5 | h6
      · exact hd4nl c h5
      · exact hpnl c h6
    have hlines : linesOf (chars "Account:" ++ w ++ t) =
        (chars "Account:" ++ w ++ (t.take 4 ++ p)) :: linesOf q := by
      rw [hline0]
      exact linesOf_append_nl _ _ hl0nl
    have hmk0 : anyMarker (chars "Account:" ++ w ++ (t.take 4 ++ p)) = true := by
      apply anyMarker_head
      apply markerLA_marker w (t.take 4 ++ p) hwws
      · rw [List.take_left' h4len, h4len]
      · rw [List.take_left' h4len]
        exact h4dig
    have hdtn : dropToNL (t.drop 4) = '\n' :: q := by
      rw [hpq]
      unfold dropToNL
      rw [dropWhile_append_all p _ ?hp]
      · rw [List.dropWhile_cons]
        simp
      case hp =>
        intro c hc
        simp only [Bool.not_eq_true', beq_eq_false_iff_ne]
        exact hpnl c hc
    have hacct : acctLineAt (chars "Account:" ++ w ++ t) =
        some (q.takeWhile (fun c => !(c == '\n'))) := by
      rw [acctLineAt_marker w t hwws h4len h4dig, hdtn]
      rfl
    have hsearch : searchAcctLine (chars "Account:" ++ w ++ t) =
        some (q.takeWhile (fun c => !(c == '\n'))) := by
      have hbc : chars "Account:" ++ w ++ t =
          'A' :: (chars "ccount:" ++ (w ++ t)) := by
        rw [show chars "Account:" = 'A' :: chars "ccount:" from rfl]
        simp [List.append_assoc]
      rw [hbc]
      unfold searchAcctLine
      rw [← hbc, hacct]
    have hqhead := linesOf_head q
    unfold extract_date_of_service specDate
    dsimp only
    rw [hsearch, hlines, hfb]
    simp only [List.findIdx?_cons, hmk0, if_true]
    have hget : ((chars "Account:" ++ w ++ (t.take 4 ++ p)) :: linesOf q).get? (0 + 1) =
        some (q.takeWhile (fun c => !(c == '\n'))) := by
      show (linesOf q).get? 0 = _
      rw [List.get?_zero]
      exact hqhead
    rw [hget]

theorem claim_C6_witness :
    extract_date_of_service (chars "Account:" ++ [' '] ++ chars "1234\n05/06/2024 x") =
      specDate (chars "Account:" ++ [' '] ++ chars "1234\n05/06/2024 x") :=
  claim_C6 [' '] (chars "1234\n05/06/2024 x") (by decide) (by decide) (by decide)

/-- Claim C6, counterexample: the segmenter really produces the block
`Account:\n1234 06/06/2026\n07/07/2027` (the boundary lookahead's `\s*`
crosses the newline), and on it the code scans the line after the digits
line and returns `07/07/2027`, while the claim's line-based description
(`specDate`) returns the first date anywhere, `06/06/2026` — no line of the
block contains the whole marker, so "the account-marker line" has no
faithful reading on which the original claim holds here. -/
theorem claim_C6_counterexample :
    splitBlocks (chars "x\nAccount:\n1234 06/06/2026\n07/07/2027") =
      [chars "x\n", chars "Account:\n1234 06/06/2026\n07/07/2027"] ∧
    (searchAccount (chars "Account:\n1234 06/06/2026\n07/07/2027")).isSome = true ∧
    extract_date_of_service (chars "Account:\n1234 06/06/2026\n07/07/2027") =
      chars "07/07/2027" ∧
    specDate (chars "Account:\n1234 06/06/2026\n07/07/2027") =
      chars "06/06/2026" := by
  decide
